import Mathlib

/-!
# Vector<T> of kth_cprog_template_container.hpp

A shallow embedding of the class template `Vector<T>` and proofs about it.

Modelling conventions.

* `size_t` is taken to be 64 bits wide. The sized constructors receive their
  length from the caller, so the doubling loop of the private set-up method
  wraps at 2^64 (`double_until`). A length or capacity of an existing buffer,
  and the size of a literal sequence, is at most 2^63, where neither
  `cap * 2` nor `length + 1` wraps: these are computed on naturals. `new`
  always succeeds.
* The free store is a map from block addresses to blocks; a block is the list
  of its slots, so the number of slots of a `new T[n]` block is part of the
  state, independently of the field `cap`.
* `new T[n]` yields `n` slots holding the default value of `T`.
* An access `p[i]` outside a live block is undefined behaviour in C++. The
  model records it instead of interpreting it: a mutating operation sets the
  flag `ub` of the heap and leaves every block as it is, a read-only
  operation returns `Result.undefined`. The fields `length`, `cap` and `v`
  are updated exactly as the statements of the source update them.
* An object is the record of its three fields together with its own address
  `addr`, which decides the tests `this != &other`.
* `insert`, `erase` and `operator[]` are translated twice: as a value or an
  exception, and, in `insert_exit`, `erase_exit` and `index_exit`, with the
  state in which the call ends; the two translations are proved to agree.
-/

namespace TemplateContainer

/-! ## The free store -/

/-- A pointer to the first slot of an array block; `none` is `nullptr`. -/
abbrev Ptr := Option Nat

/-- The free store: the live blocks, the next unused address, and the record
of an access outside a live block. -/
structure Heap (T : Type) where
  blocks : Nat → Option (List T)
  next : Nat
  ub : Bool

/-- The free store before any allocation. -/
def Heap.empty {T : Type} : Heap T := ⟨fun _ => none, 0, false⟩

/-- Value of `p[i]`, when `p` points to a live block with more than `i` slots. -/
def Heap.read {T : Type} (h : Heap T) (p : Ptr) (i : Nat) : Option T :=
  match p with
  | none => none
  | some a =>
    match h.blocks a with
    | none => none
    | some b => b[i]?

/-- Number of slots of the block `p` points to. -/
def Heap.size {T : Type} (h : Heap T) (p : Ptr) : Option Nat :=
  match p with
  | none => none
  | some a =>
    match h.blocks a with
    | none => none
    | some b => some b.length

/-- The statement `p[i] = x`. -/
def Heap.write {T : Type} (h : Heap T) (p : Ptr) (i : Nat) (x : T) : Heap T :=
  match p with
  | none => { h with ub := true }
  | some a =>
    match h.blocks a with
    | none => { h with ub := true }
    | some b =>
      if i < b.length then
        { h with blocks := fun k => if k = a then some (b.set i x) else h.blocks k }
      else { h with ub := true }

/-- The statement `dst[i] = src[j]`. -/
def Heap.assign {T : Type} (h : Heap T) (dst : Ptr) (i : Nat) (src : Ptr) (j : Nat) : Heap T :=
  match h.read src j with
  | none => { h with ub := true }
  | some x => h.write dst i x

/-- The expression `new T[n]`: a fresh block of `n` default-valued slots. -/
def Heap.alloc {T : Type} [Inhabited T] (h : Heap T) (n : Nat) : Heap T × Ptr :=
  ({ h with
      blocks := fun k => if k = h.next then some (List.replicate n default) else h.blocks k,
      next := h.next + 1 },
   some h.next)

/-- The statement `delete[] p`. -/
def Heap.free {T : Type} (h : Heap T) (p : Ptr) : Heap T :=
  match p with
  | none => h
  | some a =>
    match h.blocks a with
    | none => { h with ub := true }
    | some _ => { h with blocks := fun k => if k = a then none else h.blocks k }

/-- The address `p` holds was handed out by `new`, or `p` is null. -/
def Heap.issued {T : Type} (h : Heap T) (p : Ptr) : Prop :=
  match p with
  | none => True
  | some a => a < h.next

instance Heap.decidableIssued {T : Type} (h : Heap T) (p : Ptr) : Decidable (h.issued p) :=
  match p with
  | none => isTrue trivial
  | some a => inferInstanceAs (Decidable (a < h.next))

/-- The heap `s` has the block sizes and the next free address of `h`. -/
def Heap.sameShape {T : Type} (h s : Heap T) : Prop :=
  (∀ q, s.size q = h.size q) ∧ s.next = h.next

/-! ## Loops -/

/-- The loop `for (i = start; i < start + n; ++i) body(i)`. -/
def forUp {σ : Type} (body : Nat → σ → σ) : Nat → Nat → σ → σ
  | 0, _, s => s
  | n + 1, i, s => forUp body n (i + 1) (body i s)

/-- The loop `for (i = start; i > start - n; --i) body(i)`. -/
def forDown {σ : Type} (body : Nat → σ → σ) : Nat → Nat → σ → σ
  | 0, _, s => s
  | n + 1, i, s => forDown body n (i - 1) (body i s)

/-- Number of values of the type `size_t`, taken to be 64 bits wide. -/
def size_range : Nat := 2 ^ 64

/-- The loop `while (cap < length) cap = cap * 2;` on `size_t`: the product
`cap * 2` wraps at `size_range`. It is run for at most `fuel + 1` tests of its
condition; `none` when it has not ended by then. -/
def double_until (length : Nat) : Nat → Nat → Option Nat
  | 0, cap => if cap < length then none else some cap
  | fuel + 1, cap =>
    if cap < length then double_until length fuel (cap * 2 % size_range) else some cap

/-- The same loop where `length` is the size of a sequence held in memory,
which is at most `2 ^ 63`: there no product wraps and the loop runs on
naturals, with the result of `double_until` (see `double_until_eq_nat`). -/
def double_until_nat (length : Nat) : Nat → Nat → Option Nat
  | 0, cap => if cap < length then none else some cap
  | fuel + 1, cap => if cap < length then double_until_nat length fuel (cap * 2) else some cap

/-! ## The class -/

/-- The only exception the class throws, `std::out_of_range`. -/
inductive Exn where
  | out_of_range
deriving DecidableEq

/-- Outcome of a read-only operation. -/
inductive Result (α : Type) where
  | value (a : α)
  | out_of_range
  | undefined
deriving DecidableEq

/-- Outcome of evaluating `p[i]` as a value. -/
def Result.ofRead {α : Type} : Option α → Result α
  | some x => Result.value x
  | none => Result.undefined

/-- An object of class `Vector<T>`: its address and its data members. -/
structure Vector where
  addr : Nat
  length : Nat
  cap : Nat
  v : Ptr
deriving DecidableEq

/-- A `T *` into a block: the block and the offset in it. -/
structure Cursor where
  base : Ptr
  off : Nat
deriving DecidableEq

/-- Pointer arithmetic `c + k`. -/
def Cursor.advance (c : Cursor) (k : Nat) : Cursor := { c with off := c.off + k }

/-- The constant `default_capacity`. -/
def default_capacity : Nat := 32

namespace Vector

variable {T : Type}

/-- Source `Vector<T>::reset`. -/
def reset (h : Heap T) (this : Vector) (t : T) : Heap T :=
  forUp (fun i s => s.write this.v i t) this.length 0 h

/-- The private method that sets up a fresh object (source lines 173-186). The doubling loop gets `l` as fuel. -/
def initialise [Inhabited T] (h : Heap T) (this : Vector) (l : Nat) (t : T) (c : Nat) :
    Option (Heap T × Vector) :=
  match double_until l l c with
  | none => none
  | some cap =>
    let r := h.alloc cap
    let this1 : Vector := { this with length := l, cap := cap, v := r.2 }
    some (reset r.1 this1 t, this1)

/-- Source `Vector<T>::Vector()`. -/
def ctor [Inhabited T] (h : Heap T) (this : Vector) : Option (Heap T × Vector) :=
  initialise h this 0 default default_capacity

/-- Source `Vector<T>::Vector(const size_t l)`. -/
def ctor_size [Inhabited T] (h : Heap T) (this : Vector) (l : Nat) : Option (Heap T × Vector) :=
  initialise h this l default default_capacity

/-- Source `Vector<T>::Vector(const size_t l, T t)`. -/
def ctor_fill [Inhabited T] (h : Heap T) (this : Vector) (l : Nat) (t : T) :
    Option (Heap T × Vector) :=
  initialise h this l t default_capacity

/-- Source `Vector<T>::Vector(std::initializer_list<T> iList)`. -/
def ctor_list [Inhabited T] (h : Heap T) (this : Vector) (iList : List T) :
    Option (Heap T × Vector) :=
  match double_until_nat iList.length iList.length default_capacity with
  | none => none
  | some cap =>
    let r := h.alloc cap
    let this1 : Vector := { this with cap := cap, length := iList.length, v := r.2 }
    some (forUp (fun i s =>
            match iList[i]? with
            | some x => s.write this1.v i x
            | none => { s with ub := true }) this1.length 0 r.1,
          this1)

/-- Source `Vector<T>::copy`. -/
def copy [Inhabited T] (h : Heap T) (this other : Vector) : Heap T × Vector :=
  if this.addr ≠ other.addr then
    let r := h.alloc other.length
    let this1 : Vector := { this with cap := other.cap, length := other.length, v := r.2 }
    (forUp (fun i s => s.assign this1.v i other.v i) this1.length 0 r.1, this1)
  else (h, this)

/-- Source `Vector<T>::Vector(const Vector &other)`. -/
def ctor_copy [Inhabited T] (h : Heap T) (this other : Vector) : Heap T × Vector :=
  copy h this other

/-- Source `Vector<T>::Vector(Vector &&other)`: the new object and the moved-from one. -/
def ctor_move (this other : Vector) : Vector × Vector :=
  ({ this with cap := other.cap, length := other.length, v := other.v },
   { other with length := 0, cap := 0, v := none })

/-- Source `Vector<T>::~Vector`. -/
def dtor (h : Heap T) (this : Vector) : Heap T := h.free this.v

/-- Source `Vector<T>::operator=(const Vector &other)`. -/
def assign_copy [Inhabited T] (h : Heap T) (this other : Vector) : Heap T × Vector :=
  if this.addr ≠ other.addr then
    copy (h.free this.v) this other
  else (h, this)

/-- Source `Vector<T>::operator=(Vector &&other)`: the heap, the assigned object and
the moved-from one. -/
def assign_move (h : Heap T) (this other : Vector) : Heap T × Vector × Vector :=
  if this.addr ≠ other.addr then
    (h.free this.v,
     { this with cap := other.cap, length := other.length, v := other.v },
     { other with length := 0, cap := 0, v := none })
  else (h, this, other)

/-- Source `Vector<T>::operator[]`, both overloads, read as a value. -/
def index (h : Heap T) (this : Vector) (i : Nat) : Result T :=
  if i < this.length then Result.ofRead (h.read this.v i)
  else Result.out_of_range

/-- Source `Vector<T>::size`. -/
def size (this : Vector) : Nat := this.length

/-- Source `Vector<T>::capacity`. -/
def capacity (this : Vector) : Nat := this.cap

/-- Source `Vector<T>::reallocate`. -/
def reallocate [Inhabited T] (h : Heap T) (this : Vector) (new_cap : Nat) : Heap T × Vector :=
  let r := h.alloc new_cap
  let h1 := forUp (fun i s => s.assign r.2 i this.v i) this.length 0 r.1
  (h1.free this.v, { this with cap := new_cap, v := r.2 })

/-- Source `Vector<T>::double_capacity`. -/
def double_capacity [Inhabited T] (h : Heap T) (this : Vector) : Heap T × Vector :=
  reallocate h this (this.cap * 2)

/-- Source `Vector<T>::push_back`. -/
def push_back [Inhabited T] (h : Heap T) (this : Vector) (t : T) : Heap T × Vector :=
  let r := if this.length + 1 > this.cap then double_capacity h this else (h, this)
  (r.1.write r.2.v r.2.length t, { r.2 with length := r.2.length + 1 })

/-- Source `Vector<T>::insert`. -/
def insert [Inhabited T] (h : Heap T) (this : Vector) (pos : Nat) (t : T) :
    Except Exn (Heap T × Vector) :=
  if pos > this.length then Except.error Exn.out_of_range
  else
    let r := if this.length + 1 > this.cap then double_capacity h this else (h, this)
    let h1 := forDown (fun i s => s.assign r.2.v i r.2.v (i - 1)) (r.2.length - pos) r.2.length r.1
    Except.ok (h1.write r.2.v pos t, { r.2 with length := r.2.length + 1 })

/-- Source `Vector<T>::clear`. -/
def clear (this : Vector) : Vector := { this with length := 0 }

/-- Source `Vector<T>::erase`. -/
def erase (h : Heap T) (this : Vector) (pos : Nat) : Except Exn (Heap T × Vector) :=
  if pos ≥ this.length then Except.error Exn.out_of_range
  else
    let h1 := forUp (fun i s => s.assign this.v i this.v (i + 1)) (this.length - 1 - pos) pos h
    Except.ok (h1, { this with length := this.length - 1 })

/-- Source `Vector<T>::begin`, both overloads: `&v[0]`. -/
def begin (this : Vector) : Cursor := ⟨this.v, 0⟩

/-- Source `Vector<T>::end`, both overloads: `&v[0 + length]`. -/
def end_ (this : Vector) : Cursor := ⟨this.v, 0 + this.length⟩

/-- The loop of `Vector<T>::find` with `n` elements left before `&v[length]`,
`beg` being `&v[i]`. -/
def find_from [DecidableEq T] (h : Heap T) (p : Ptr) (elem : T) : Nat → Nat → Result Cursor
  | 0, i => Result.value ⟨p, i⟩
  | n + 1, i =>
    match h.read p i with
    | none => Result.undefined
    | some x => if x = elem then Result.value ⟨p, i⟩ else find_from h p elem n (i + 1)

/-- Source `Vector<T>::find`, both overloads. -/
def find [DecidableEq T] (h : Heap T) (this : Vector) (elem : T) : Result Cursor :=
  find_from h this.v elem this.length 0

/-- The results of `operator[]` at `0, 1, ..., length - 1`. -/
def readAll (h : Heap T) (this : Vector) : List (Result T) :=
  (List.range this.length).map (index h this)

end Vector

/-! ## Calls that end in an exception, caller loops, reachable objects -/

namespace Vector

variable {T : Type}

/-- The state in which a call ends, and the exception it ends with, if any. -/
structure Exit (T : Type) where
  heap : Heap T
  this : Vector
  thrown : Option Exn

/-- Source `Vector<T>::operator[]`, both overloads, with the state the call ends in. -/
def index_exit (h : Heap T) (this : Vector) (i : Nat) : Exit T :=
  if i < this.length then ⟨h, this, none⟩
  else ⟨h, this, some Exn.out_of_range⟩

/-- Source `Vector<T>::insert`, with the state the call ends in, also when it throws. -/
def insert_exit [Inhabited T] (h : Heap T) (this : Vector) (pos : Nat) (t : T) : Exit T :=
  if pos > this.length then ⟨h, this, some Exn.out_of_range⟩
  else
    let r := if this.length + 1 > this.cap then double_capacity h this else (h, this)
    let h1 := forDown (fun i s => s.assign r.2.v i r.2.v (i - 1)) (r.2.length - pos) r.2.length r.1
    ⟨h1.write r.2.v pos t, { r.2 with length := r.2.length + 1 }, none⟩

/-- Source `Vector<T>::erase`, with the state the call ends in, also when it throws. -/
def erase_exit (h : Heap T) (this : Vector) (pos : Nat) : Exit T :=
  if pos ≥ this.length then ⟨h, this, some Exn.out_of_range⟩
  else
    let h1 := forUp (fun i s => s.assign this.v i this.v (i + 1)) (this.length - 1 - pos) pos h
    ⟨h1, { this with length := this.length - 1 }, none⟩

/-- The caller loop `for (x : xs) a.push_back(x);`. -/
def push_back_all [Inhabited T] (s : Heap T × Vector) (xs : List T) : Heap T × Vector :=
  xs.foldl (fun r x => push_back r.1 r.2 x) s

/-- The buffer of `a` came from the allocator and has `cap` slots, with
`cap ≥ 1` and `cap ≥ length`. -/
def wf (h : Heap T) (a : Vector) : Prop :=
  h.issued a.v ∧ h.size a.v = some a.cap ∧ 1 ≤ a.cap ∧ a.length ≤ a.cap

/-- The sizing rule in the words of the specification: `c` is
`default_capacity * 2 ^ k` for the least `k` with `default_capacity * 2 ^ k ≥ n`. -/
def least_doubling (c n : Nat) : Prop :=
  ∃ k, c = default_capacity * 2 ^ k ∧ n ≤ c ∧ ∀ j, j < k → default_capacity * 2 ^ j < n

/-- The objects the public interface can produce. The heap an operation runs
in is left arbitrary, so every state of a program using the class is covered;
`reset` assigns to no field and needs no rule. -/
inductive Reachable (T : Type) [Inhabited T] : Vector → Prop where
  | ctor (h : Heap T) (this : Vector) (s : Heap T × Vector) :
      Vector.ctor h this = some s → Reachable T s.2
  | ctor_size (h : Heap T) (this : Vector) (l : Nat) (s : Heap T × Vector) :
      Vector.ctor_size h this l = some s → Reachable T s.2
  | ctor_fill (h : Heap T) (this : Vector) (l : Nat) (t : T) (s : Heap T × Vector) :
      Vector.ctor_fill h this l t = some s → Reachable T s.2
  | ctor_list (h : Heap T) (this : Vector) (xs : List T) (s : Heap T × Vector) :
      Vector.ctor_list h this xs = some s → Reachable T s.2
  | ctor_copy (h : Heap T) (this other : Vector) :
      Reachable T other → this.addr ≠ other.addr → Reachable T (Vector.ctor_copy h this other).2
  | assign_copy (h : Heap T) (this other : Vector) :
      Reachable T this → Reachable T other → Reachable T (Vector.assign_copy h this other).2
  | ctor_move_to (this other : Vector) :
      Reachable T other → Reachable T (Vector.ctor_move this other).1
  | ctor_move_from (this other : Vector) :
      Reachable T other → Reachable T (Vector.ctor_move this other).2
  | assign_move_to (h : Heap T) (this other : Vector) :
      Reachable T this → Reachable T other → Reachable T (Vector.assign_move h this other).2.1
  | assign_move_from (h : Heap T) (this other : Vector) :
      Reachable T this → Reachable T other → Reachable T (Vector.assign_move h this other).2.2
  | push_back (h : Heap T) (a : Vector) (x : T) :
      Reachable T a → Reachable T (Vector.push_back h a x).2
  | insert (h : Heap T) (a : Vector) (pos : Nat) (x : T) (s : Heap T × Vector) :
      Reachable T a → Vector.insert h a pos x = Except.ok s → Reachable T s.2
  | erase (h : Heap T) (a : Vector) (pos : Nat) (s : Heap T × Vector) :
      Reachable T a → Vector.erase h a pos = Except.ok s → Reachable T s.2
  | clear (a : Vector) : Reachable T a → Reachable T (Vector.clear a)

end Vector

/-! ## Sample states -/

/-- Storage of an object at address `n` before a constructor has run. -/
def raw (n : Nat) : Vector := ⟨n, 0, 0, none⟩

/-- Heap and `a` after `Vector<int> a{1, 2, 3, 4, 5};`. -/
def sample_list : Heap Int × Vector :=
  (Vector.ctor_list Heap.empty (raw 0) [1, 2, 3, 4, 5]).getD (Heap.empty, raw 0)

/-- Heap and `a` after `Vector<int> a{1, 2, 3, 4, 5}; a.erase(2);`. -/
def sample_erased : Heap Int × Vector :=
  match Vector.erase sample_list.1 sample_list.2 2 with
  | Except.ok s => s
  | Except.error _ => sample_list

/-- Heap and `a` after `Vector<int> a(32, 7);`, a vector filled to its capacity. -/
def sample_full : Heap Int × Vector :=
  (Vector.ctor_fill Heap.empty (raw 0) 32 7).getD (Heap.empty, raw 0)

/-- Heap, `b` and `a` after `Vector<int> a; Vector<int> b(std::move(a));`. -/
def sample_moved : Heap Int × Vector × Vector :=
  match Vector.ctor (Heap.empty : Heap Int) (raw 0) with
  | some s => (s.1, Vector.ctor_move (raw 1) s.2)
  | none => (Heap.empty, raw 1, raw 0)

/-- Heap and `a` after `Vector<int> a;`. -/
def sample_default : Heap Int × Vector :=
  (Vector.ctor Heap.empty (raw 0)).getD (Heap.empty, raw 0)

/-- Heap and `a` after `Vector<int> a; for (int i = 0; i < 32; ++i) a.push_back(i);`. -/
def sample_pushed32 : Heap Int × Vector :=
  Vector.push_back_all sample_default ((List.range 32).map Int.ofNat)

/-- Heap and `a` after `Vector<int> a; for (int i = 0; i < 33; ++i) a.push_back(i);`. -/
def sample_pushed33 : Heap Int × Vector :=
  Vector.push_back_all sample_default ((List.range 33).map Int.ofNat)

/-- Heap and `b` after `Vector<int> a{1, 2, 3, 4, 5}; Vector<int> b(a);`. -/
def sample_copy : Heap Int × Vector :=
  Vector.ctor_copy sample_list.1 (raw 1) sample_list.2

/-- Heap and `c` after `Vector<int> a{1, 2, 3, 4, 5}; Vector<int> c(40);`. -/
def sample_wide : Heap Int × Vector :=
  (Vector.ctor_size sample_list.1 (raw 1) 40).getD (Heap.empty, raw 1)

/-! ## The free store: accesses -/

section Lemmas

variable {T : Type}


theorem Heap.isSome_read_iff (h : Heap T) (p : Ptr) (i : Nat) :
    (h.read p i).isSome = true ↔ ∃ n, h.size p = some n ∧ i < n := by
  cases p with
  | none => simp [Heap.read, Heap.size]
  | some a =>
    simp only [Heap.read, Heap.size]
    cases hb : h.blocks a with
    | none => simp
    | some b =>
      simp only [Option.some.injEq, exists_eq_left']
      rw [Option.isSome_iff_exists]
      constructor
      · rintro ⟨x, hx⟩
        exact (List.getElem?_eq_some_iff.mp hx).1
      · intro hi
        exact ⟨b[i], List.getElem?_eq_getElem hi⟩

theorem Heap.read_write (h : Heap T) (p q : Ptr) (i j : Nat) (x : T) :
    (h.write p i x).read q j
      = if q = p ∧ j = i ∧ (h.read p i).isSome = true then some x else h.read q j := by
  cases p with
  | none => simp [Heap.read, Heap.write]
  | some a =>
    simp only [Heap.write, Heap.read]
    cases hb : h.blocks a with
    | none => simp
    | some b =>
      by_cases hi : i < b.length
      · simp only [hi, if_true]
        cases q with
        | none => simp
        | some c =>
          by_cases hc : c = a
          · subst hc
            by_cases hj : j = i
            · subst hj; simp [hb, hi]
            · simp [hb, hi, hj, List.getElem?_set]
              intro h1; exact absurd h1.symm hj
          · simp [hc]
      · simp only [hi, if_false]
        have : b[i]? = none := List.getElem?_eq_none (by omega)
        simp [this]

theorem Heap.ub_write (h : Heap T) (p : Ptr) (i : Nat) (x : T) :
    (h.write p i x).ub = (h.ub || !(h.read p i).isSome) := by
  cases p with
  | none => simp [Heap.read, Heap.write]
  | some a =>
    simp only [Heap.write, Heap.read]
    cases hb : h.blocks a with
    | none => simp
    | some b =>
      by_cases hi : i < b.length
      · simp [hi]
      · have : b[i]? = none := List.getElem?_eq_none (by omega)
        simp [hi, this]

theorem Heap.size_write (h : Heap T) (p q : Ptr) (i : Nat) (x : T) :
    (h.write p i x).size q = h.size q := by
  cases p with
  | none => simp [Heap.size, Heap.write]
  | some a =>
    simp only [Heap.write]
    cases hb : h.blocks a with
    | none => simp [Heap.size]
    | some b =>
      by_cases hi : i < b.length
      · simp only [hi, if_true]
        cases q with
        | none => simp [Heap.size]
        | some c =>
          by_cases hc : c = a
          · subst hc; simp [Heap.size, hb]
          · simp [Heap.size, hc]
      · simp [hi, Heap.size]

theorem Heap.next_write (h : Heap T) (p : Ptr) (i : Nat) (x : T) :
    (h.write p i x).next = h.next := by
  cases p with
  | none => simp [Heap.write]
  | some a =>
    simp only [Heap.write]
    cases hb : h.blocks a with
    | none => simp
    | some b => by_cases hi : i < b.length <;> simp [hi]


theorem Heap.read_assign (h : Heap T) (d s q : Ptr) (i j k : Nat) :
    (h.assign d i s j).read q k
      = if q = d ∧ k = i ∧ (h.read d i).isSome = true ∧ (h.read s j).isSome = true
          then h.read s j else h.read q k := by
  unfold Heap.assign
  cases hs : h.read s j with
  | none => simp [Heap.read]
  | some x => simp [Heap.read_write]

theorem Heap.ub_assign (h : Heap T) (d s : Ptr) (i j : Nat) :
    (h.assign d i s j).ub = (h.ub || !((h.read d i).isSome && (h.read s j).isSome)) := by
  unfold Heap.assign
  cases hs : h.read s j with
  | none => simp
  | some x => simp [Heap.ub_write]

theorem Heap.size_assign (h : Heap T) (d s q : Ptr) (i j : Nat) :
    (h.assign d i s j).size q = h.size q := by
  unfold Heap.assign
  cases hs : h.read s j with
  | none => simp [Heap.size]
  | some x => simp [Heap.size_write]

theorem Heap.next_assign (h : Heap T) (d s : Ptr) (i j : Nat) :
    (h.assign d i s j).next = h.next := by
  unfold Heap.assign
  cases hs : h.read s j with
  | none => simp
  | some x => simp [Heap.next_write]

theorem Heap.read_alloc [Inhabited T] (h : Heap T) (n : Nat) (q : Ptr) (j : Nat) :
    (h.alloc n).1.read q j
      = if q = some h.next then (if j < n then some default else none) else h.read q j := by
  cases q with
  | none => simp [Heap.read]
  | some c =>
    by_cases hc : c = h.next
    · subst hc
      by_cases hj : j < n
      · simp [Heap.read, Heap.alloc, hj, List.getElem?_replicate]
      · simp [Heap.read, Heap.alloc, hj, List.getElem?_replicate]
    · simp [Heap.read, Heap.alloc, hc]

theorem Heap.size_alloc [Inhabited T] (h : Heap T) (n : Nat) (q : Ptr) :
    (h.alloc n).1.size q = if q = some h.next then some n else h.size q := by
  cases q with
  | none => simp [Heap.size]
  | some c =>
    by_cases hc : c = h.next
    · subst hc; simp [Heap.size, Heap.alloc]
    · simp [Heap.size, Heap.alloc, hc]

theorem Heap.ptr_alloc [Inhabited T] (h : Heap T) (n : Nat) : (h.alloc n).2 = some h.next := rfl

theorem Heap.ub_alloc [Inhabited T] (h : Heap T) (n : Nat) : (h.alloc n).1.ub = h.ub := rfl

theorem Heap.next_alloc [Inhabited T] (h : Heap T) (n : Nat) :
    (h.alloc n).1.next = h.next + 1 := rfl

theorem Heap.read_free (h : Heap T) (p q : Ptr) (j : Nat) :
    (h.free p).read q j = if q = p then none else h.read q j := by
  cases p with
  | none => cases q <;> simp [Heap.read, Heap.free]
  | some a =>
    simp only [Heap.free]
    cases hb : h.blocks a with
    | none =>
      cases q with
      | none => simp [Heap.read]
      | some c =>
        by_cases hc : c = a
        · subst hc; simp [Heap.read, hb]
        · simp [Heap.read, hc]
    | some b =>
      cases q with
      | none => simp [Heap.read]
      | some c =>
        by_cases hc : c = a
        · subst hc; simp [Heap.read]
        · simp [Heap.read, hc]

theorem Heap.size_free (h : Heap T) (p q : Ptr) :
    (h.free p).size q = if q = p then none else h.size q := by
  cases p with
  | none => cases q <;> simp [Heap.size, Heap.free]
  | some a =>
    simp only [Heap.free]
    cases hb : h.blocks a with
    | none =>
      cases q with
      | none => simp [Heap.size]
      | some c =>
        by_cases hc : c = a
        · subst hc; simp [Heap.size, hb]
        · simp [Heap.size, hc]
    | some b =>
      cases q with
      | none => simp [Heap.size]
      | some c =>
        by_cases hc : c = a
        · subst hc; simp [Heap.size]
        · simp [Heap.size, hc]

theorem Heap.ub_free (h : Heap T) (p : Ptr) :
    (h.free p).ub = (h.ub || (p.isSome && !(h.size p).isSome)) := by
  cases p with
  | none => simp [Heap.free]
  | some a =>
    simp only [Heap.free, Heap.size]
    cases hb : h.blocks a <;> simp

theorem Heap.next_free (h : Heap T) (p : Ptr) : (h.free p).next = h.next := by
  cases p with
  | none => simp [Heap.free]
  | some a =>
    simp only [Heap.free]
    cases hb : h.blocks a <;> simp


/-! ### Loops over the free store -/

theorem forUp_inv {σ : Type} (body : Nat → σ → σ) (I : σ → Prop)
    (hI : ∀ i s, I s → I (body i s)) : ∀ (n i : Nat) (s : σ), I s → I (forUp body n i s) := by
  intro n
  induction n with
  | zero => intro i s hs; simpa [forUp] using hs
  | succ n ih => intro i s hs; simp only [forUp]; exact ih _ _ (hI i s hs)

theorem forDown_inv {σ : Type} (body : Nat → σ → σ) (I : σ → Prop)
    (hI : ∀ i s, I s → I (body i s)) : ∀ (n i : Nat) (s : σ), I s → I (forDown body n i s) := by
  intro n
  induction n with
  | zero => intro i s hs; simpa [forDown] using hs
  | succ n ih => intro i s hs; simp only [forDown]; exact ih _ _ (hI i s hs)


theorem Heap.sameShape_refl (h : Heap T) : h.sameShape h := ⟨fun _ => rfl, rfl⟩

theorem Heap.sameShape_write (h s : Heap T) (p : Ptr) (i : Nat) (x : T) (hs : h.sameShape s) :
    h.sameShape (s.write p i x) :=
  ⟨fun q => by rw [Heap.size_write, hs.1], by rw [Heap.next_write, hs.2]⟩

theorem Heap.sameShape_assign (h s : Heap T) (d r : Ptr) (i j : Nat) (hs : h.sameShape s) :
    h.sameShape (s.assign d i r j) :=
  ⟨fun q => by rw [Heap.size_assign, hs.1], by rw [Heap.next_assign, hs.2]⟩

theorem Heap.sameShape_ub (h s : Heap T) (hs : h.sameShape s) :
    h.sameShape { s with ub := true } := hs

theorem Heap.read_of_size (h : Heap T) (p : Ptr) (m i : Nat) (hsz : h.size p = some m)
    (hi : i < m) : (h.read p i).isSome = true :=
  (Heap.isSome_read_iff h p i).2 ⟨m, hsz, hi⟩

theorem forUp_write (p : Ptr) (t : T) (m : Nat) : ∀ (n start : Nat) (h : Heap T),
    h.size p = some m → start + n ≤ m →
    (∀ q j, (forUp (fun i s => s.write p i t) n start h).read q j
        = if q = p ∧ start ≤ j ∧ j < start + n then some t else h.read q j) ∧
    (forUp (fun i s => s.write p i t) n start h).ub = h.ub := by
  intro n
  induction n with
  | zero =>
    intro start h _ _
    refine ⟨fun q j => ?_, rfl⟩
    rw [if_neg (by rintro ⟨_, h1, h2⟩; omega)]; rfl
  | succ n ih =>
    intro start h hsz hle
    have hin := Heap.read_of_size h p m start hsz (by omega)
    have ih1 := ih (start + 1) (h.write p start t) (by rw [Heap.size_write, hsz]) (by omega)
    simp only [forUp]
    refine ⟨fun q j => ?_, ?_⟩
    · rw [ih1.1, Heap.read_write]
      simp only [hin, and_true]
      by_cases hq : q = p
      · by_cases h1 : start + 1 ≤ j ∧ j < start + 1 + n
        · have h2 : start ≤ j ∧ j < start + (n + 1) := by omega
          simp [hq, h1, h2]
        · by_cases h3 : j = start
          · simp [hq, h3]
          · have h2 : ¬ (start ≤ j ∧ j < start + (n + 1)) := by omega
            simp [hq, h1, h2, h3]
      · simp [hq]
    · rw [ih1.2, Heap.ub_write, hin]; simp


theorem forUp_list (p : Ptr) (xs : List T) (m : Nat) : ∀ (n start : Nat) (h : Heap T),
    h.size p = some m → start + n ≤ m → start + n ≤ xs.length →
    (∀ q j, (forUp (fun i s =>
          match xs[i]? with
          | some x => s.write p i x
          | none => { s with ub := true }) n start h).read q j
        = if q = p ∧ start ≤ j ∧ j < start + n then xs[j]? else h.read q j) ∧
    (forUp (fun i s =>
          match xs[i]? with
          | some x => s.write p i x
          | none => { s with ub := true }) n start h).ub = h.ub := by
  intro n
  induction n with
  | zero =>
    intro start h _ _ _
    refine ⟨fun q j => ?_, rfl⟩
    rw [if_neg (by rintro ⟨_, h1, h2⟩; omega)]; rfl
  | succ n ih =>
    intro start h hsz hle hxs
    have hin := Heap.read_of_size h p m start hsz (by omega)
    have hx : xs[start]? = some (xs[start]) := List.getElem?_eq_getElem (by omega)
    have ih1 := ih (start + 1) (h.write p start xs[start]) (by rw [Heap.size_write, hsz])
      (by omega) (by omega)
    simp only [forUp, hx]
    refine ⟨fun q j => ?_, ?_⟩
    · rw [ih1.1, Heap.read_write]
      simp only [hin, and_true]
      by_cases hq : q = p
      · by_cases h1 : start + 1 ≤ j ∧ j < start + 1 + n
        · have h2 : start ≤ j ∧ j < start + (n + 1) := by omega
          simp [hq, h1, h2]
        · by_cases h3 : j = start
          · simp [hq, h3, hx]
          · have h2 : ¬ (start ≤ j ∧ j < start + (n + 1)) := by omega
            simp [hq, h1, h2, h3]
      · simp [hq]
    · rw [ih1.2, Heap.ub_write, hin]; simp

theorem forUp_copy (d src : Ptr) (hne : src ≠ d) (m : Nat) : ∀ (n start : Nat) (h : Heap T),
    h.size d = some m → start + n ≤ m →
    (∀ k, start ≤ k → k < start + n → (h.read src k).isSome = true) →
    (∀ q j, (forUp (fun i s => s.assign d i src i) n start h).read q j
        = if q = d ∧ start ≤ j ∧ j < start + n then h.read src j else h.read q j) ∧
    (forUp (fun i s => s.assign d i src i) n start h).ub = h.ub := by
  intro n
  induction n with
  | zero =>
    intro start h _ _ _
    refine ⟨fun q j => ?_, rfl⟩
    rw [if_neg (by rintro ⟨_, h1, h2⟩; omega)]; rfl
  | succ n ih =>
    intro start h hsz hle hsrc
    have hin := Heap.read_of_size h d m start hsz (by omega)
    have hin2 := hsrc start (by omega) (by omega)
    have hkeep : ∀ k, (h.assign d start src start).read src k = h.read src k := by
      intro k; rw [Heap.read_assign]; simp [hne]
    have ih1 := ih (start + 1) (h.assign d start src start)
      (by rw [Heap.size_assign, hsz]) (by omega)
      (fun k hk1 hk2 => by rw [hkeep]; exact hsrc k (by omega) (by omega))
    simp only [forUp]
    refine ⟨fun q j => ?_, ?_⟩
    · rw [ih1.1, hkeep, Heap.read_assign]
      simp only [hin, hin2, and_true]
      by_cases hq : q = d
      · by_cases h1 : start + 1 ≤ j ∧ j < start + 1 + n
        · have h2 : start ≤ j ∧ j < start + (n + 1) := by omega
          simp [hq, h1, h2]
        · by_cases h3 : j = start
          · simp [hq, h3]
          · have h2 : ¬ (start ≤ j ∧ j < start + (n + 1)) := by omega
            simp [hq, h1, h2, h3]
      · simp [hq]
    · rw [ih1.2, Heap.ub_assign, hin, hin2]; simp

theorem forUp_shift (p : Ptr) (m : Nat) : ∀ (n start : Nat) (h : Heap T),
    h.size p = some m → start + n + 1 ≤ m →
    (∀ q j, (forUp (fun i s => s.assign p i p (i + 1)) n start h).read q j
        = if q = p ∧ start ≤ j ∧ j < start + n then h.read p (j + 1) else h.read q j) ∧
    (forUp (fun i s => s.assign p i p (i + 1)) n start h).ub = h.ub := by
  intro n
  induction n with
  | zero =>
    intro start h _ _
    refine ⟨fun q j => ?_, rfl⟩
    rw [if_neg (by rintro ⟨_, h1, h2⟩; omega)]; rfl
  | succ n ih =>
    intro start h hsz hle
    have hin := Heap.read_of_size h p m start hsz (by omega)
    have hin2 := Heap.read_of_size h p m (start + 1) hsz (by omega)
    have ih1 := ih (start + 1) (h.assign p start p (start + 1))
      (by rw [Heap.size_assign, hsz]) (by omega)
    simp only [forUp]
    refine ⟨fun q j => ?_, ?_⟩
    · rw [ih1.1, Heap.read_assign, Heap.read_assign]
      simp only [hin, hin2, and_true, true_and]
      by_cases hq : q = p
      · by_cases h1 : start + 1 ≤ j ∧ j < start + 1 + n
        · have h2 : start ≤ j ∧ j < start + (n + 1) := by omega
          have h3 : j + 1 ≠ start := by omega
          simp [hq, h1, h2, h3]
        · by_cases h3 : j = start
          · simp [hq, h3]
          · have h2 : ¬ (start ≤ j ∧ j < start + (n + 1)) := by omega
            simp [hq, h1, h2, h3]
      · simp [hq]
    · rw [ih1.2, Heap.ub_assign, hin, hin2]; simp

theorem forDown_shift (p : Ptr) (m : Nat) : ∀ (n start : Nat) (h : Heap T),
    h.size p = some m → n ≤ start → start < m →
    (∀ q j, (forDown (fun i s => s.assign p i p (i - 1)) n start h).read q j
        = if q = p ∧ start < j + n ∧ j ≤ start then h.read p (j - 1) else h.read q j) ∧
    (forDown (fun i s => s.assign p i p (i - 1)) n start h).ub = h.ub := by
  intro n
  induction n with
  | zero =>
    intro start h _ _ _
    refine ⟨fun q j => ?_, rfl⟩
    rw [if_neg (by rintro ⟨_, h1, h2⟩; omega)]; rfl
  | succ n ih =>
    intro start h hsz hle hlt
    have hin := Heap.read_of_size h p m start hsz (by omega)
    have hin2 := Heap.read_of_size h p m (start - 1) hsz (by omega)
    have ih1 := ih (start - 1) (h.assign p start p (start - 1))
      (by rw [Heap.size_assign, hsz]) (by omega) (by omega)
    simp only [forDown]
    refine ⟨fun q j => ?_, ?_⟩
    · rw [ih1.1, Heap.read_assign, Heap.read_assign]
      simp only [hin, hin2, and_true, true_and]
      by_cases hq : q = p
      · by_cases h1 : start - 1 < j + n ∧ j ≤ start - 1
        · have h2 : start < j + (n + 1) ∧ j ≤ start := by omega
          have h3 : j - 1 ≠ start := by omega
          simp [hq, h1, h2, h3]
        · by_cases h3 : j = start
          · have h2 : start < start + (n + 1) := by omega
            simp [hq, h3, h2]
          · have h2 : ¬ (start < j + (n + 1) ∧ j ≤ start) := by omega
            simp [hq, h1, h2, h3]
      · simp [hq]
    · rw [ih1.2, Heap.ub_assign, hin, hin2]; simp



theorem Heap.issued_ne_next (h : Heap T) (p : Ptr) (hp : h.issued p) : p ≠ some h.next := by
  intro heq
  rw [heq] at hp
  exact Nat.lt_irrefl _ hp

theorem forUp_assign_shape (d src : Ptr) (f g : Nat → Nat) (n start : Nat) (h : Heap T) :
    h.sameShape (forUp (fun i s => s.assign d (g i) src (f i)) n start h) :=
  forUp_inv _ (fun s => h.sameShape s) (fun _ s hs => Heap.sameShape_assign h s d src _ _ hs)
    n start h (Heap.sameShape_refl h)

theorem forDown_assign_shape (d src : Ptr) (f g : Nat → Nat) (n start : Nat) (h : Heap T) :
    h.sameShape (forDown (fun i s => s.assign d (g i) src (f i)) n start h) :=
  forDown_inv _ (fun s => h.sameShape s) (fun _ s hs => Heap.sameShape_assign h s d src _ _ hs)
    n start h (Heap.sameShape_refl h)

theorem forUp_write_shape (p : Ptr) (t : Nat → T) (n start : Nat) (h : Heap T) :
    h.sameShape (forUp (fun i s => s.write p i (t i)) n start h) :=
  forUp_inv _ (fun s => h.sameShape s) (fun _ s hs => Heap.sameShape_write h s p _ _ hs)
    n start h (Heap.sameShape_refl h)

namespace Vector

/-! ### Growth of the buffer -/

theorem reallocate_fields [Inhabited T] (h : Heap T) (a : Vector) (n : Nat) :
    (reallocate h a n).2 = { a with cap := n, v := some h.next } := rfl

theorem reallocate_next [Inhabited T] (h : Heap T) (a : Vector) (n : Nat) :
    (reallocate h a n).1.next = h.next + 1 := by
  simp only [reallocate]
  rw [Heap.next_free]
  have := (forUp_assign_shape (h.alloc n).2 a.v (fun i => i) (fun i => i) a.length 0 (h.alloc n).1).2
  simpa [Heap.next_alloc] using this

theorem reallocate_spec [Inhabited T] (h : Heap T) (a : Vector) (n m : Nat)
    (hiss : h.issued a.v) (hsz : h.size a.v = some m) (hlm : a.length ≤ m) (hln : a.length ≤ n) :
    (∀ j, (reallocate h a n).1.read (some h.next) j
        = if j < a.length then h.read a.v j else if j < n then some default else none) ∧
    (reallocate h a n).1.size (some h.next) = some n ∧
    (reallocate h a n).1.ub = h.ub := by
  have hne : a.v ≠ some h.next := Heap.issued_ne_next h a.v hiss
  have hsz1 : (h.alloc n).1.size (some h.next) = some n := by rw [Heap.size_alloc]; simp
  have hsrc : ∀ k, 0 ≤ k → k < 0 + a.length → ((h.alloc n).1.read a.v k).isSome = true := by
    intro k _ hk
    rw [Heap.read_alloc, if_neg hne]
    exact Heap.read_of_size h a.v m k hsz (by omega)
  have hloop := forUp_copy (some h.next) a.v hne n a.length 0 (h.alloc n).1 hsz1 (by omega) hsrc
  have hshape := forUp_assign_shape (some h.next) a.v (fun i => i) (fun i => i) a.length 0
    (h.alloc n).1
  simp only [reallocate, Heap.ptr_alloc]
  refine ⟨fun j => ?_, ?_, ?_⟩
  · rw [Heap.read_free, if_neg (Ne.symm hne), hloop.1]
    by_cases hj : j < a.length
    · simp [hj, Heap.read_alloc, hne]
    · simp [hj, Heap.read_alloc]
  · rw [Heap.size_free, if_neg (Ne.symm hne), hshape.1, hsz1]
  · rw [Heap.ub_free, hloop.2, Heap.ub_alloc, hshape.1, Heap.size_alloc, if_neg hne, hsz]
    simp


/-! ### Reading a vector -/

theorem length_readAll (h : Heap T) (a : Vector) : (readAll h a).length = a.length := by
  simp [readAll]

theorem getElem?_readAll (h : Heap T) (a : Vector) (k : Nat) :
    (readAll h a)[k]? = if k < a.length then some (Result.ofRead (h.read a.v k)) else none := by
  by_cases hk : k < a.length
  · simp [readAll, List.getElem?_range hk, index, hk]
  · have : (List.range a.length)[k]? = none := List.getElem?_eq_none (by simp; omega)
    simp [readAll, this, hk]

theorem grow_spec [Inhabited T] (h : Heap T) (a : Vector) (r : Heap T × Vector)
    (hr : r = if a.length + 1 > a.cap then double_capacity h a else (h, a))
    (hiss : h.issued a.v) (hsz : h.size a.v = some a.cap) (h1 : 1 ≤ a.cap)
    (hl : a.length ≤ a.cap) :
    r.2.length = a.length ∧ r.1.size r.2.v = some r.2.cap ∧ a.length + 1 ≤ r.2.cap ∧
    (∀ j, j < a.length → r.1.read r.2.v j = h.read a.v j) ∧ r.1.ub = h.ub := by
  by_cases hg : a.length + 1 > a.cap
  · rw [if_pos hg] at hr
    have hs := reallocate_spec h a (a.cap * 2) a.cap hiss hsz hl (by omega)
    have hf := reallocate_fields h a (a.cap * 2)
    subst hr
    simp only [double_capacity]
    rw [hf]
    refine ⟨rfl, hs.2.1, by simp; omega, fun j hj => ?_, hs.2.2⟩
    simp only []
    rw [hs.1, if_pos hj]
  · rw [if_neg hg] at hr
    subst hr
    exact ⟨rfl, hsz, by show a.length + 1 ≤ a.cap; omega, fun _ _ => rfl, rfl⟩


/-! ### The operations `push_back`, `insert` and `erase` -/

theorem push_back_read [Inhabited T] (h : Heap T) (a : Vector) (x : T)
    (hiss : h.issued a.v) (hsz : h.size a.v = some a.cap) (h1 : 1 ≤ a.cap)
    (hl : a.length ≤ a.cap) :
    (push_back h a x).2.length = a.length + 1 ∧
    (∀ j, j < a.length + 1 → (push_back h a x).1.read (push_back h a x).2.v j
        = if j = a.length then some x else h.read a.v j) ∧
    (push_back h a x).1.ub = h.ub := by
  obtain ⟨g1, g2, g3, g4, g5⟩ := grow_spec h a _ rfl hiss hsz h1 hl
  have hin := Heap.read_of_size _ _ _ a.length g2 (by omega)
  simp only [push_back]
  refine ⟨by rw [g1], fun j hj => ?_, ?_⟩
  · rw [Heap.read_write, g1]
    by_cases hja : j = a.length
    · simp [hja, hin]
    · simp only [hja, false_and, and_false, if_false]
      exact g4 j (by omega)
  · rw [Heap.ub_write, g1, hin, g5]; simp

theorem read_live (h : Heap T) (a : Vector) (m : Nat) (hsz : h.size a.v = some m)
    (hl : a.length ≤ m) (i : Nat) (hi : i < a.length) :
    ∃ y, h.read a.v i = some y ∧ index h a i = Result.value y := by
  have hin := Heap.read_of_size h a.v m i hsz (by omega)
  obtain ⟨y, hy⟩ := Option.isSome_iff_exists.mp hin
  exact ⟨y, hy, by simp [index, hi, hy, Result.ofRead]⟩

/-- C3. On a vector whose buffer has `cap` slots, `cap ≥ 1` and `cap ≥ length`,
`push_back(x)` raises the length by exactly one, the live sequence becomes the
old one followed by `x`, every prior element keeps its index and value, and no
access leaves the buffer; this covers the reallocating case `length = cap`. -/
theorem push_back_appends [Inhabited T] (h : Heap T) (a : Vector) (x : T)
    (hiss : h.issued a.v) (hsz : h.size a.v = some a.cap) (h1 : 1 ≤ a.cap)
    (hl : a.length ≤ a.cap) :
    size (push_back h a x).2 = size a + 1 ∧
    readAll (push_back h a x).1 (push_back h a x).2 = readAll h a ++ [Result.value x] ∧
    (∀ i, i < a.length → ∃ y, index h a i = Result.value y ∧
        index (push_back h a x).1 (push_back h a x).2 i = Result.value y) ∧
    (push_back h a x).1.ub = h.ub := by
  obtain ⟨p1, p2, p3⟩ := push_back_read h a x hiss hsz h1 hl
  refine ⟨p1, ?_, fun i hi => ?_, p3⟩
  · apply List.ext_getElem?
    intro k
    rw [getElem?_readAll, List.getElem?_append, length_readAll, getElem?_readAll, p1]
    by_cases hk : k < a.length
    · rw [if_pos (by omega), if_pos hk, if_pos hk, p2 k (by omega), if_neg (by omega)]
    · by_cases hk2 : k = a.length
      · subst hk2
        rw [if_pos (by omega), if_neg hk, p2 _ (by omega), if_pos rfl]
        simp [Result.ofRead]
      · rw [if_neg (by omega), if_neg hk]
        exact (List.getElem?_eq_none (by simp; omega)).symm
  · obtain ⟨y, hy, hv⟩ := read_live h a a.cap hsz hl i hi
    refine ⟨y, hv, ?_⟩
    simp only [index, p1]
    rw [if_pos (by omega), p2 i (by omega), if_neg (by omega), hy]
    rfl


theorem index_of_lt (h : Heap T) (a : Vector) (i : Nat) (hi : i < a.length) :
    index h a i = Result.ofRead (h.read a.v i) := by
  simp [index, hi]

theorem shift_write (h1 : Heap T) (p : Ptr) (len pos m : Nat) (x : T)
    (hsz : h1.size p = some m) (hlen : len + 1 ≤ m) (hpos : pos ≤ len) :
    (∀ j, ((forDown (fun i s => s.assign p i p (i - 1)) (len - pos) len h1).write p pos x).read p j
        = if j < pos then h1.read p j else if j = pos then some x
          else if j ≤ len then h1.read p (j - 1) else h1.read p j) ∧
    ((forDown (fun i s => s.assign p i p (i - 1)) (len - pos) len h1).write p pos x).ub
      = h1.ub := by
  have hloop := forDown_shift p m (len - pos) len h1 hsz (Nat.sub_le _ _) (by omega)
  have hshape := forDown_assign_shape p p (fun i => i - 1) (fun i => i) (len - pos) len h1
  have hin := Heap.read_of_size _ p m pos (by rw [hshape.1]; exact hsz) (by omega)
  refine ⟨fun j => ?_, ?_⟩
  · rw [Heap.read_write, hin, hloop.1]
    by_cases hjp : j = pos
    · subst hjp
      simp
    · rw [if_neg (by rintro ⟨_, h2, _⟩; exact hjp h2)]
      by_cases hlt : j < pos
      · rw [if_neg (by rintro ⟨_, h2, _⟩; omega), if_pos hlt]
      · rw [if_neg hlt, if_neg hjp]
        by_cases hle : j ≤ len
        · rw [if_pos ⟨rfl, by omega, hle⟩, if_pos hle]
        · rw [if_neg (by rintro ⟨_, _, h3⟩; omega), if_neg hle]
  · rw [Heap.ub_write, hin, hloop.2]; simp

theorem insert_read [Inhabited T] (h : Heap T) (a : Vector) (pos : Nat) (x : T)
    (hiss : h.issued a.v) (hsz : h.size a.v = some a.cap) (h1 : 1 ≤ a.cap)
    (hl : a.length ≤ a.cap) (hpos : pos ≤ a.length) :
    ∃ h' a', insert h a pos x = Except.ok (h', a') ∧ a'.length = a.length + 1 ∧
      (∀ j, j < a.length + 1 → h'.read a'.v j
          = if j < pos then h.read a.v j else if j = pos then some x else h.read a.v (j - 1)) ∧
      h'.ub = h.ub := by
  have hg := grow_spec h a _ rfl hiss hsz h1 hl
  simp only [insert]
  rw [if_neg (by omega)]
  generalize (if a.length + 1 > a.cap then double_capacity h a else (h, a)) = r at hg ⊢
  obtain ⟨g1, g2, g3, g4, g5⟩ := hg
  have hsw := shift_write r.1 r.2.v r.2.length pos r.2.cap x g2 (by omega) (by omega)
  refine ⟨_, _, rfl, ?_, ?_, ?_⟩
  · simp only []; rw [g1]
  · intro j hj
    simp only []
    rw [hsw.1, g1]
    by_cases hlt : j < pos
    · rw [if_pos hlt, if_pos hlt]; exact g4 j (by omega)
    · rw [if_neg hlt, if_neg hlt]
      by_cases hjp : j = pos
      · rw [if_pos hjp, if_pos hjp]
      · rw [if_neg hjp, if_neg hjp, if_pos (by omega)]
        exact g4 (j - 1) (by omega)
  · show _ = h.ub
    rw [← g5]; exact hsw.2


/-- C4. On a vector whose buffer has `cap` slots, `cap ≥ 1` and `cap ≥ length`,
`insert(pos, x)` with `pos ≤ length` succeeds, raises the length by exactly
one and turns the live sequence into its first `pos` elements, then `x`, then
its elements from index `pos` on. -/
theorem insert_shifts_right [Inhabited T] (h : Heap T) (a : Vector) (pos : Nat) (x : T)
    (hiss : h.issued a.v) (hsz : h.size a.v = some a.cap) (h1 : 1 ≤ a.cap)
    (hl : a.length ≤ a.cap) (hpos : pos ≤ a.length) :
    ∃ h' a', insert h a pos x = Except.ok (h', a') ∧ size a' = size a + 1 ∧
      readAll h' a'
        = (readAll h a).take pos ++ [Result.value x] ++ (readAll h a).drop pos ∧
      index h' a' pos = Result.value x ∧
      (∀ j, j < pos → index h' a' j = index h a j) ∧
      (∀ j, pos ≤ j → j < a.length → index h' a' (j + 1) = index h a j) ∧
      (∀ j, j < a.length → ∃ y, index h a j = Result.value y) ∧
      h'.ub = h.ub := by
  obtain ⟨h', a', hok, hlen, hread, hub⟩ := insert_read h a pos x hiss hsz h1 hl hpos
  refine ⟨h', a', hok, hlen, ?_, ?_, fun j hj => ?_, fun j hj1 hj2 => ?_, fun j hj => ?_, hub⟩
  · apply List.ext_getElem?
    intro k
    have htl : (List.take pos (readAll h a)).length = pos := by
      rw [List.length_take, length_readAll]; omega
    rw [getElem?_readAll, hlen, List.append_assoc, List.getElem?_append, htl]
    by_cases hk : k < pos
    · rw [if_pos (by omega), hread k (by omega), if_pos hk, if_pos hk, List.getElem?_take,
        if_pos hk, getElem?_readAll, if_pos (by omega)]
    · rw [if_neg hk]
      by_cases hkp : k = pos
      · subst hkp
        rw [if_pos (by omega), hread _ (by omega), if_neg hk, if_pos rfl]
        simp [Result.ofRead]
      · obtain ⟨d, hd⟩ : ∃ d, k = pos + d + 1 := ⟨k - pos - 1, by omega⟩
        subst hd
        have e1 : pos + d + 1 - pos = d + 1 := by omega
        rw [e1, List.singleton_append, List.getElem?_cons_succ, List.getElem?_drop,
          getElem?_readAll]
        by_cases hb : pos + d + 1 < a.length + 1
        · rw [if_pos hb, if_pos (by omega), hread _ hb, if_neg hk, if_neg hkp]
          rfl
        · rw [if_neg hb, if_neg (by omega)]
  · rw [index_of_lt h' a' pos (by omega), hread pos (by omega), if_neg (by omega), if_pos rfl]
    rfl
  · rw [index_of_lt h' a' j (by omega), index_of_lt h a j (by omega), hread j (by omega),
      if_pos hj]
  · rw [index_of_lt h' a' (j + 1) (by omega), index_of_lt h a j hj2, hread (j + 1) (by omega),
      if_neg (by omega), if_neg (by omega)]
    rfl
  · obtain ⟨y, _, hy⟩ := read_live h a a.cap hsz hl j hj
    exact ⟨y, hy⟩

theorem erase_read (h : Heap T) (a : Vector) (pos m : Nat)
    (hsz : h.size a.v = some m) (hlm : a.length ≤ m) (hpos : pos < a.length) :
    ∃ h', erase h a pos = Except.ok (h', { a with length := a.length - 1 }) ∧
      (∀ j, h'.read a.v j
          = if pos ≤ j ∧ j < a.length - 1 then h.read a.v (j + 1) else h.read a.v j) ∧
      h'.ub = h.ub := by
  have hloop := forUp_shift a.v m (a.length - 1 - pos) pos h hsz (by omega)
  simp only [erase]
  rw [if_neg (by omega)]
  refine ⟨_, rfl, fun j => ?_, hloop.2⟩
  rw [hloop.1]
  by_cases hc : pos ≤ j ∧ j < a.length - 1
  · rw [if_pos ⟨rfl, hc.1, by omega⟩, if_pos hc]
  · rw [if_neg (by rintro ⟨_, h2, h3⟩; omega), if_neg hc]

/-- C5. On a vector whose live elements lie in its buffer and with
`cap ≥ length`, `erase(pos)` with `pos < length` succeeds, lowers the length by
exactly one, keeps the capacity and removes the element at index `pos` from
the live sequence, the later elements moving down by one. -/
theorem erase_shifts_left (h : Heap T) (a : Vector) (pos m : Nat)
    (hsz : h.size a.v = some m) (hlm : a.length ≤ m) (hl : a.length ≤ a.cap)
    (hpos : pos < a.length) :
    ∃ h' a', erase h a pos = Except.ok (h', a') ∧ size a' + 1 = size a ∧
      capacity a' = capacity a ∧ a'.length ≤ a'.cap ∧
      readAll h' a' = (readAll h a).eraseIdx pos ∧
      (∀ j, j < pos → index h' a' j = index h a j) ∧
      (∀ j, pos < j → j < a.length → index h' a' (j - 1) = index h a j) ∧
      (∀ j, j < a.length → ∃ y, index h a j = Result.value y) ∧
      h'.ub = h.ub := by
  obtain ⟨h', hok, hread, hub⟩ := erase_read h a pos m hsz hlm hpos
  refine ⟨h', _, hok, ?_, rfl, ?_, ?_, fun j hj => ?_, fun j hj1 hj2 => ?_, fun j hj => ?_, hub⟩
  · show a.length - 1 + 1 = a.length
    omega
  · show a.length - 1 ≤ a.cap
    omega
  · apply List.ext_getElem?
    intro k
    rw [getElem?_readAll, List.getElem?_eraseIdx, getElem?_readAll, getElem?_readAll]
    show (if k < a.length - 1 then some (Result.ofRead (h'.read a.v k)) else none) = _
    rw [hread]
    by_cases hk : k < pos
    · rw [if_pos (by omega), if_neg (by omega), if_pos hk, if_pos (by omega)]
    · rw [if_neg hk]
      by_cases hb : k < a.length - 1
      · rw [if_pos hb, if_pos ⟨by omega, hb⟩, if_pos (by omega)]
      · rw [if_neg hb, if_neg (by omega)]
  · rw [index_of_lt h' _ j (by show j < a.length - 1; omega), index_of_lt h a j (by omega)]
    show Result.ofRead (h'.read a.v j) = _
    rw [hread, if_neg (by omega)]
  · rw [index_of_lt h' _ (j - 1) (by show j - 1 < a.length - 1; omega), index_of_lt h a j hj2]
    show Result.ofRead (h'.read a.v (j - 1)) = _
    rw [hread, if_pos (by omega)]
    have : j - 1 + 1 = j := by omega
    rw [this]
  · obtain ⟨y, _, hy⟩ := read_live h a m hsz hlm j hj
    exact ⟨y, hy⟩

end Vector


/-! ### Construction from a literal sequence, and the exception -/

theorem double_until_nat_some (length : Nat) : ∀ (fuel cap : Nat), 1 ≤ cap →
    length ≤ cap * 2 ^ fuel → ∃ c, double_until_nat length fuel cap = some c ∧ length ≤ c := by
  intro fuel
  induction fuel with
  | zero =>
    intro cap _ hle
    refine ⟨cap, ?_, by simpa using hle⟩
    simp only [double_until_nat]
    rw [if_neg (by simp at hle; omega)]
  | succ fuel ih =>
    intro cap hc hle
    simp only [double_until_nat]
    by_cases hlt : cap < length
    · rw [if_pos hlt]
      exact ih (cap * 2) (by omega) (by rw [pow_succ] at hle; linarith)
    · rw [if_neg hlt]
      exact ⟨cap, rfl, by omega⟩

theorem double_until_nat_default (length : Nat) :
    ∃ c, double_until_nat length length default_capacity = some c ∧ length ≤ c := by
  apply double_until_nat_some length length default_capacity (by decide)
  have h1 : length < 2 ^ length := Nat.lt_two_pow length
  have h2 : 1 * 2 ^ length ≤ default_capacity * 2 ^ length :=
    Nat.mul_le_mul_right _ (by decide)
  omega

namespace Vector

/-- C1. The vector built from the literal sequence `xs` has size `|xs|`, and
`operator[]` at every `i < |xs|` succeeds with `xs[i]`. -/
theorem ctor_list_roundtrip [Inhabited T] (h : Heap T) (this : Vector) (xs : List T) :
    ∃ h' a, ctor_list h this xs = some (h', a) ∧ size a = xs.length ∧
      (∀ i (hi : i < xs.length), index h' a i = Result.value xs[i]) ∧
      readAll h' a = xs.map Result.value ∧ h'.ub = h.ub := by
  obtain ⟨c, hc, hle⟩ := double_until_nat_default xs.length
  have hsz : (h.alloc c).1.size (some h.next) = some c := by rw [Heap.size_alloc]; simp
  have hloop := forUp_list (some h.next) xs c xs.length 0 (h.alloc c).1 hsz (by omega) (by omega)
  simp only [ctor_list, hc, Heap.ptr_alloc]
  refine ⟨_, _, rfl, rfl, fun i hi => ?_, ?_, ?_⟩
  · rw [index_of_lt _ _ i hi]
    show Result.ofRead (Heap.read _ (some h.next) i) = _
    rw [hloop.1, if_pos ⟨rfl, by omega, by omega⟩, List.getElem?_eq_getElem hi]
    rfl
  · apply List.ext_getElem?
    intro k
    rw [getElem?_readAll, List.getElem?_map]
    show (if k < xs.length then some (Result.ofRead (Heap.read _ (some h.next) k)) else none) = _
    by_cases hk : k < xs.length
    · rw [if_pos hk, hloop.1, if_pos ⟨rfl, by omega, by omega⟩, List.getElem?_eq_getElem hk]
      rfl
    · rw [if_neg hk, List.getElem?_eq_none (by omega)]
      rfl
  · exact hloop.2

/-- C2. `operator[]` throws `out_of_range` exactly when `i ≥ length` and
otherwise yields the element stored at slot `i`; `erase` throws exactly when
`pos ≥ length`; `insert` throws exactly when `pos > length`; and
`out_of_range` is the only exception of these operations. -/
theorem out_of_range_iff [Inhabited T] (h : Heap T) (a : Vector) (i : Nat) (x : T) :
    (index h a i = Result.out_of_range ↔ a.length ≤ i) ∧
    (∀ y, i < a.length → h.read a.v i = some y → index h a i = Result.value y) ∧
    (erase h a i = Except.error Exn.out_of_range ↔ a.length ≤ i) ∧
    (insert h a i x = Except.error Exn.out_of_range ↔ a.length < i) ∧
    (∀ e, erase h a i = Except.error e ∨ insert h a i x = Except.error e →
      e = Exn.out_of_range) ∧
    (i < a.length → ∃ s, erase h a i = Except.ok s) ∧
    (i ≤ a.length → ∃ s, insert h a i x = Except.ok s) := by
  refine ⟨?_, fun y hi hy => ?_, ?_, ?_, fun e _ => ?_, fun hi => ?_, fun hi => ?_⟩
  · by_cases hi : i < a.length
    · simp only [index, if_pos hi]
      cases h.read a.v i <;> simp [Result.ofRead] <;> omega
    · simp [index, hi]; omega
  · simp [index, hi, hy, Result.ofRead]
  · by_cases hi : i ≥ a.length
    · simp [erase, hi]
    · simp only [erase, if_neg hi]
      simp; omega
  · by_cases hi : i > a.length
    · simp [insert, hi]
    · simp only [insert, if_neg hi]
      simp; omega
  · cases e; rfl
  · exact ⟨_, by simp only [erase]; rw [if_neg (by omega)]⟩
  · exact ⟨_, by simp only [insert]; rw [if_neg (by omega)]⟩


/-! ### Linear search -/

theorem find_from_spec [DecidableEq T] (h : Heap T) (p : Ptr) (elem : T) :
    ∀ (ys : List T) (i : Nat), (∀ k, k < ys.length → h.read p (i + k) = ys[k]?) →
    ∃ k, find_from h p elem ys.length i = Result.value ⟨p, i + k⟩ ∧ k ≤ ys.length ∧
      (∀ j, j < k → ys[j]? ≠ some elem) ∧ (k < ys.length → ys[k]? = some elem) := by
  intro ys
  induction ys with
  | nil =>
    intro i _
    exact ⟨0, rfl, Nat.le_refl _, fun j hj => absurd hj (Nat.not_lt_zero j),
      fun hk => absurd hk (Nat.lt_irrefl _)⟩
  | cons y ys ih =>
    intro i hread
    have h0 : h.read p i = some y := by simpa using hread 0 (by simp)
    simp only [List.length_cons, find_from, h0]
    by_cases hy : y = elem
    · rw [if_pos hy]
      exact ⟨0, rfl, Nat.zero_le _, fun j hj => absurd hj (Nat.not_lt_zero j),
        fun _ => by simp [hy]⟩
    · rw [if_neg hy]
      obtain ⟨k, hk1, hk2, hk3, hk4⟩ := ih (i + 1) (fun k hk => by
        have := hread (k + 1) (by simp; omega)
        rw [List.getElem?_cons_succ] at this
        rw [← this]; congr 1; omega)
      refine ⟨k + 1, ?_, by omega, fun j hj => ?_, fun hk => ?_⟩
      · rw [hk1]; congr 2; omega
      · cases j with
        | zero => simpa using hy
        | succ j => rw [List.getElem?_cons_succ]; exact hk3 j (by omega)
      · rw [List.getElem?_cons_succ]; exact hk4 (by omega)

theorem read_of_readAll (h : Heap T) (a : Vector) (xs : List T)
    (hlive : readAll h a = xs.map Result.value) :
    xs.length = a.length ∧ ∀ k, k < xs.length → h.read a.v k = xs[k]? := by
  have hlen : xs.length = a.length := by
    have := congrArg List.length hlive
    rw [length_readAll, List.length_map] at this
    exact this.symm
  refine ⟨hlen, fun k hk => ?_⟩
  have hk2 := congrArg (fun l => l[k]?) hlive
  simp only [getElem?_readAll, List.getElem?_map] at hk2
  rw [if_pos (by omega), List.getElem?_eq_getElem hk] at hk2
  rw [List.getElem?_eq_getElem hk]
  cases hr : h.read a.v k with
  | none => rw [hr] at hk2; simp [Result.ofRead] at hk2
  | some y =>
    rw [hr] at hk2
    simp only [Result.ofRead, Option.map_some', Option.some.injEq, Result.value.injEq] at hk2
    rw [hk2]

/-- C6. On a vector with live sequence `xs`, `find(x)` returns `begin() + k`
for the least `k < length` with `xs[k] = x`, and it returns `end()`, which is
`begin() + length`, exactly when no live element equals `x`; slots at
positions `≥ length` play no part. -/
theorem find_first [DecidableEq T] (h : Heap T) (a : Vector) (xs : List T) (x : T)
    (hlive : readAll h a = xs.map Result.value) :
    ∃ k, find h a x = Result.value ((begin a).advance k) ∧ k ≤ a.length ∧
      (∀ j, j < k → xs[j]? ≠ some x) ∧ (k < a.length → xs[k]? = some x) ∧
      (find h a x = Result.value (end_ a) ↔ x ∉ xs) ∧
      end_ a = (begin a).advance a.length := by
  obtain ⟨hlen, hread⟩ := read_of_readAll h a xs hlive
  obtain ⟨k, hk1, hk2, hk3, hk4⟩ := find_from_spec h a.v x xs 0 (fun k hk => by
    rw [Nat.zero_add]; exact hread k hk)
  rw [hlen] at hk1 hk2 hk4
  refine ⟨k, hk1, hk2, hk3, hk4, ?_, rfl⟩
  show find_from h a.v x a.length 0 = Result.value (end_ a) ↔ x ∉ xs
  rw [hk1]
  simp only [end_, Result.value.injEq, Cursor.mk.injEq, true_and, Nat.zero_add]
  constructor
  · intro hkl hmem
    obtain ⟨j, hj⟩ := List.mem_iff_getElem?.mp hmem
    have hjl : j < xs.length := (List.getElem?_eq_some_iff.mp hj).1
    exact hk3 j (by omega) hj
  · intro hmem
    by_contra hne
    exact hmem (List.mem_iff_getElem?.mpr ⟨k, hk4 (by omega)⟩)


/-! ### Copy and move -/

theorem readAll_congr (h s : Heap T) (a b : Vector) (hlen : b.length = a.length)
    (hread : ∀ j, j < a.length → s.read b.v j = h.read a.v j) : readAll s b = readAll h a := by
  apply List.ext_getElem?
  intro k
  rw [getElem?_readAll, getElem?_readAll, hlen]
  by_cases hk : k < a.length
  · rw [if_pos hk, if_pos hk, hread k hk]
  · rw [if_neg hk, if_neg hk]

/-- C10. Move construction of `b` from `a`, and move assignment `b = move(a)`
with `b` another object owning another buffer, leave `a` with length 0,
capacity 0 and no buffer, and give `b` the length, the capacity and the live
elements, in order, that `a` had. -/
theorem move_transfers (h : Heap T) (b a : Vector) :
    ((ctor_move b a).2.length = 0 ∧ (ctor_move b a).2.cap = 0 ∧ (ctor_move b a).2.v = none ∧
      size (ctor_move b a).1 = size a ∧ capacity (ctor_move b a).1 = capacity a ∧
      readAll h (ctor_move b a).1 = readAll h a) ∧
    (b.addr ≠ a.addr → (a.v = none ∨ b.v ≠ a.v) →
      (assign_move h b a).2.2.length = 0 ∧ (assign_move h b a).2.2.cap = 0 ∧
      (assign_move h b a).2.2.v = none ∧
      size (assign_move h b a).2.1 = size a ∧ capacity (assign_move h b a).2.1 = capacity a ∧
      readAll (assign_move h b a).1 (assign_move h b a).2.1 = readAll h a) := by
  refine ⟨⟨rfl, rfl, rfl, rfl, rfl, ?_⟩, fun hd hown => ?_⟩
  · exact readAll_congr h h a _ rfl (fun _ _ => rfl)
  · simp only [assign_move]
    rw [if_pos hd]
    refine ⟨rfl, rfl, rfl, rfl, rfl, ?_⟩
    refine readAll_congr h _ a _ rfl (fun j _ => ?_)
    show (h.free b.v).read a.v j = h.read a.v j
    rw [Heap.read_free]
    rcases hown with h0 | h0
    · rw [h0]; simp [Heap.read]
    · rw [if_neg (Ne.symm h0)]

end Vector

/-! ## Evaluations on sample states -/

namespace Vector

theorem sample_list_eq :
    ctor_list (Heap.empty : Heap Int) (raw 0) [1, 2, 3, 4, 5] = some sample_list := rfl

theorem sample_erased_eq :
    erase sample_list.1 sample_list.2 2 = Except.ok sample_erased := rfl

theorem sample_full_eq :
    ctor_fill (Heap.empty : Heap Int) (raw 0) 32 7 = some sample_full := rfl

theorem sample_moved_eq :
    ∃ s, ctor (Heap.empty : Heap Int) (raw 0) = some s ∧
      sample_moved = (s.1, ctor_move (raw 1) s.2) := ⟨_, rfl, rfl⟩

/-- The round trip on `{4, 5, 6}`. -/
theorem ctor_list_roundtrip_witness :
    ∃ h' a, ctor_list (Heap.empty : Heap Int) (raw 0) [4, 5, 6] = some (h', a) ∧ size a = 3 ∧
      index h' a 1 = Result.value 5 := by
  obtain ⟨h', a, h1, h2, h3, _⟩ := ctor_list_roundtrip (Heap.empty : Heap Int) (raw 0) [4, 5, 6]
  exact ⟨h', a, h1, h2, h3 1 (by decide)⟩

/-- The bounds of `{1, 2, 3, 4, 5}`: index 5 and erase 5 throw, insert 6 throws,
insert 5 does not. -/
theorem out_of_range_iff_witness :
    index sample_list.1 sample_list.2 5 = Result.out_of_range ∧
    index sample_list.1 sample_list.2 4 = Result.value 5 ∧
    erase sample_list.1 sample_list.2 5 = Except.error Exn.out_of_range ∧
    insert sample_list.1 sample_list.2 6 0 = Except.error Exn.out_of_range ∧
    ∃ s, insert sample_list.1 sample_list.2 5 0 = Except.ok s :=
  ⟨(out_of_range_iff sample_list.1 sample_list.2 5 0).1.2 (by decide),
   (out_of_range_iff sample_list.1 sample_list.2 4 0).2.1 5 (by decide) (by decide),
   (out_of_range_iff sample_list.1 sample_list.2 5 0).2.2.1.2 (by decide),
   (out_of_range_iff sample_list.1 sample_list.2 6 0).2.2.2.1.2 (by decide),
   (out_of_range_iff sample_list.1 sample_list.2 5 0).2.2.2.2.2.2 (by decide)⟩

/-- A `push_back` on a vector with 32 elements in 32 slots, which reallocates. -/
theorem push_back_appends_witness :
    (sample_full.1.issued sample_full.2.v ∧
      sample_full.1.size sample_full.2.v = some sample_full.2.cap ∧
      1 ≤ sample_full.2.cap ∧ sample_full.2.length ≤ sample_full.2.cap) ∧
    size (push_back sample_full.1 sample_full.2 9).2 = 33 ∧
    readAll (push_back sample_full.1 sample_full.2 9).1 (push_back sample_full.1 sample_full.2 9).2
      = readAll sample_full.1 sample_full.2 ++ [Result.value 9] :=
  ⟨⟨by decide, by decide, by decide, by decide⟩,
   (push_back_appends sample_full.1 sample_full.2 9 (by decide) (by decide) (by decide)
      (by decide)).1,
   (push_back_appends sample_full.1 sample_full.2 9 (by decide) (by decide) (by decide)
      (by decide)).2.1⟩

/-- The scenario `{1, 2, 4, 5}`, `insert(1, 9)`: `{1, 9, 2, 4, 5}`, length 5. -/
theorem insert_shifts_right_witness :
    (sample_erased.1.issued sample_erased.2.v ∧
      sample_erased.1.size sample_erased.2.v = some sample_erased.2.cap ∧
      1 ≤ sample_erased.2.cap ∧ sample_erased.2.length ≤ sample_erased.2.cap ∧
      1 ≤ sample_erased.2.length) ∧
    readAll sample_erased.1 sample_erased.2 = [1, 2, 4, 5].map Result.value ∧
    ∃ h' a', insert sample_erased.1 sample_erased.2 1 9 = Except.ok (h', a') ∧ size a' = 5 ∧
      readAll h' a' = [1, 9, 2, 4, 5].map Result.value := by
  refine ⟨⟨by decide, by decide, by decide, by decide, by decide⟩, by decide, ?_⟩
  obtain ⟨h', a', hok, hlen, hread, _⟩ := insert_shifts_right sample_erased.1 sample_erased.2 1 9
    (by decide) (by decide) (by decide) (by decide) (by decide)
  exact ⟨h', a', hok, hlen, by rw [hread]; decide⟩

/-- The scenario `{1, 2, 3, 4, 5}`, `erase(2)`: `{1, 2, 4, 5}`, length 4. -/
theorem erase_shifts_left_witness :
    (sample_list.1.size sample_list.2.v = some 32 ∧ sample_list.2.length ≤ 32 ∧
      sample_list.2.length ≤ sample_list.2.cap ∧ 2 < sample_list.2.length) ∧
    readAll sample_list.1 sample_list.2 = [1, 2, 3, 4, 5].map Result.value ∧
    ∃ h' a', erase sample_list.1 sample_list.2 2 = Except.ok (h', a') ∧ size a' = 4 ∧
      capacity a' = 32 ∧ readAll h' a' = [1, 2, 4, 5].map Result.value := by
  refine ⟨⟨by decide, by decide, by decide, by decide⟩, by decide, ?_⟩
  obtain ⟨h', a', hok, hlen, hcap, _, hread, _⟩ := erase_shifts_left sample_list.1 sample_list.2
    2 32 (by decide) (by decide) (by decide) (by decide)
  refine ⟨h', a', hok, ?_, by rw [hcap]; decide, by rw [hread]; decide⟩
  have h5 : size sample_list.2 = 5 := by decide
  omega

/-- In `{1, 2, 3, 4, 5}` the search for 9 ends at `end()` and the search for 3 at
`begin() + 2`. -/
theorem find_first_witness :
    readAll sample_list.1 sample_list.2 = [1, 2, 3, 4, 5].map Result.value ∧
    find sample_list.1 sample_list.2 9 = Result.value (end_ sample_list.2) ∧
    find sample_list.1 sample_list.2 3 = Result.value ((begin sample_list.2).advance 2) := by
  refine ⟨by decide, ?_, ?_⟩
  · obtain ⟨_, _, _, _, _, hend, _⟩ := find_first sample_list.1 sample_list.2 [1, 2, 3, 4, 5] 9
      (by decide)
    exact hend.2 (by decide)
  · obtain ⟨k, hk, hle, hbefore, hat, _, _⟩ := find_first sample_list.1 sample_list.2
      [1, 2, 3, 4, 5] 3 (by decide)
    have h5 : sample_list.2.length = 5 := by decide
    rw [h5] at hle hat
    have hk2 : k = 2 := by
      rcases Nat.lt_or_ge k 2 with h1 | h1
      · interval_cases k
        · exact absurd (hat (by omega)) (by decide)
        · exact absurd (hat (by omega)) (by decide)
      · rcases Nat.lt_or_ge 2 k with h2 | h2
        · exact absurd rfl (hbefore 2 h2)
        · omega
    rw [hk, hk2]


/-- C7, evaluated on the code. After `Vector<int> a; Vector<int> b(std::move(a));`
the moved-from `a` has length 0 and capacity 0. `a.push_back(7)` doubles the
capacity 0 to 0, stores outside the zero-slot buffer and counts the element:
length 1, capacity 0. `a.insert(0, 7)` ends the same way. -/
theorem push_back_moved_from_exceeds_capacity :
    sample_moved.2.2.length = 0 ∧ sample_moved.2.2.cap = 0 ∧ sample_moved.2.2.v = none ∧
    size (push_back sample_moved.1 sample_moved.2.2 7).2 = 1 ∧
    capacity (push_back sample_moved.1 sample_moved.2.2 7).2 = 0 ∧
    (push_back sample_moved.1 sample_moved.2.2 7).1.size
      (push_back sample_moved.1 sample_moved.2.2 7).2.v = some 0 ∧
    (push_back sample_moved.1 sample_moved.2.2 7).1.ub = true ∧
    ¬ (size (push_back sample_moved.1 sample_moved.2.2 7).2
        ≤ capacity (push_back sample_moved.1 sample_moved.2.2 7).2) ∧
    (∃ s, insert sample_moved.1 sample_moved.2.2 0 7 = Except.ok s ∧ size s.2 = 1 ∧
      capacity s.2 = 0 ∧ s.1.ub = true) := by
  refine ⟨by decide, by decide, by decide, by decide, by decide, by decide, by decide,
    by decide, ⟨_, rfl, by decide, by decide, by decide⟩⟩

/-- C8 as stated fails: the copy of `{1, 2, 3, 4, 5}` reports capacity 32, the
capacity of its source, while the length of the source is 5. -/
theorem copy_capacity_not_source_length :
    size sample_list.2 = 5 ∧ capacity sample_list.2 = 32 ∧
    capacity (ctor_copy sample_list.1 (raw 1) sample_list.2).2 = 32 ∧
    capacity (assign_copy sample_moved.1 sample_moved.2.1 sample_list.2).2 = 32 ∧
    capacity (ctor_copy sample_list.1 (raw 1) sample_list.2).2 ≠ size sample_list.2 := by
  decide

/-- C8, amended. The vector produced by copy construction, and by copy
assignment from another object, reports the capacity of its source. -/
theorem copy_keeps_capacity [Inhabited T] (h : Heap T) (this other : Vector)
    (hd : this.addr ≠ other.addr) :
    capacity (ctor_copy h this other).2 = capacity other ∧
    capacity (assign_copy h this other).2 = capacity other := by
  simp only [ctor_copy, assign_copy, copy, if_pos hd]
  exact ⟨rfl, rfl⟩

/-- The copies of `{1, 2, 3, 4, 5}` report its capacity. -/
theorem copy_keeps_capacity_witness :
    (raw 1).addr ≠ sample_list.2.addr ∧
    capacity (ctor_copy sample_list.1 (raw 1) sample_list.2).2 = capacity sample_list.2 ∧
    capacity (assign_copy sample_list.1 (raw 1) sample_list.2).2 = capacity sample_list.2 :=
  ⟨by decide, copy_keeps_capacity sample_list.1 (raw 1) sample_list.2 (by decide)⟩

/-- Move assignment from `{1, 2, 3, 4, 5}`. -/
theorem move_transfers_witness :
    ((raw 1).addr ≠ sample_list.2.addr ∧ ((raw 1).v ≠ sample_list.2.v)) ∧
    (assign_move sample_list.1 (raw 1) sample_list.2).2.2.cap = 0 ∧
    readAll (assign_move sample_list.1 (raw 1) sample_list.2).1
        (assign_move sample_list.1 (raw 1) sample_list.2).2.1
      = readAll sample_list.1 sample_list.2 :=
  ⟨⟨by decide, by decide⟩,
   ((move_transfers sample_list.1 (raw 1) sample_list.2).2 (by decide)
      (Or.inr (by decide))).2.1,
   ((move_transfers sample_list.1 (raw 1) sample_list.2).2 (by decide)
      (Or.inr (by decide))).2.2.2.2.2⟩

end Vector

/-! ### The sizing rule of the constructors -/

theorem double_until_nat_least (n : Nat) : ∀ (fuel i : Nat),
    (∀ j, j < i → default_capacity * 2 ^ j < n) → n ≤ default_capacity * 2 ^ (i + fuel) →
    ∃ k, double_until_nat n fuel (default_capacity * 2 ^ i) = some (default_capacity * 2 ^ k) ∧
      n ≤ default_capacity * 2 ^ k ∧ ∀ j, j < k → default_capacity * 2 ^ j < n := by
  intro fuel
  induction fuel with
  | zero =>
    intro i hlow hle
    refine ⟨i, ?_, by simpa using hle, hlow⟩
    simp only [double_until_nat]
    rw [if_neg (by simp at hle; omega)]
  | succ fuel ih =>
    intro i hlow hle
    simp only [double_until_nat]
    by_cases hlt : default_capacity * 2 ^ i < n
    · rw [if_pos hlt]
      have hstep : default_capacity * 2 ^ i * 2 = default_capacity * 2 ^ (i + 1) := by
        rw [pow_succ, Nat.mul_assoc]
      rw [hstep]
      refine ih (i + 1) (fun j hj => ?_) (by
        have : i + 1 + fuel = i + (fuel + 1) := by omega
        rw [this]; exact hle)
      rcases Nat.lt_or_ge j i with h1 | h1
      · exact hlow j h1
      · have : j = i := by omega
        rw [this]; exact hlt
    · rw [if_neg hlt]
      exact ⟨i, rfl, by omega, hlow⟩

theorem double_until_nat_rule (n : Nat) :
    ∃ c, double_until_nat n n default_capacity = some c ∧ Vector.least_doubling c n := by
  have h1 : n < 2 ^ n := Nat.lt_two_pow n
  have h2 : 1 * 2 ^ n ≤ default_capacity * 2 ^ n := Nat.mul_le_mul_right _ (by decide)
  obtain ⟨k, hk1, hk2, hk3⟩ := double_until_nat_least n n 0
    (fun j hj => absurd hj (Nat.not_lt_zero j)) (by rw [Nat.zero_add]; omega)
  rw [pow_zero, Nat.mul_one] at hk1
  exact ⟨_, hk1, k, rfl, hk2, hk3⟩

theorem double_until_eq_nat (length : Nat) (hl : length ≤ 2 ^ 63) : ∀ (fuel cap : Nat),
    double_until length fuel cap = double_until_nat length fuel cap := by
  intro fuel
  induction fuel with
  | zero => intro cap; rfl
  | succ fuel ih =>
    intro cap
    simp only [double_until, double_until_nat]
    by_cases hlt : cap < length
    · rw [if_pos hlt, if_pos hlt]
      have hsmall : cap * 2 < size_range := by
        have : (2 : Nat) ^ 64 = 2 ^ 63 * 2 := by norm_num
        simp only [size_range]
        omega
      rw [Nat.mod_eq_of_lt hsmall]
      exact ih (cap * 2)
    · rw [if_neg hlt, if_neg hlt]

theorem double_until_never_ends (length : Nat) (hl : 2 ^ 63 < length) : ∀ (fuel cap : Nat),
    (cap = 0 ∨ ∃ j, j ≤ 63 ∧ cap = 2 ^ j) → double_until length fuel cap = none := by
  have hbound : ∀ cap, (cap = 0 ∨ ∃ j, j ≤ 63 ∧ cap = 2 ^ j) → cap < length := by
    intro cap hc
    rcases hc with h0 | ⟨j, hj, hc⟩
    · omega
    · have : (2 : Nat) ^ j ≤ 2 ^ 63 := Nat.pow_le_pow_right (by decide) hj
      omega
  have hstep : ∀ cap, (cap = 0 ∨ ∃ j, j ≤ 63 ∧ cap = 2 ^ j) →
      (cap * 2 % size_range = 0 ∨ ∃ j, j ≤ 63 ∧ cap * 2 % size_range = 2 ^ j) := by
    intro cap hc
    rcases hc with h0 | ⟨j, hj, hc⟩
    · left; rw [h0]; rfl
    · rcases Nat.lt_or_ge j 63 with h1 | h1
      · right
        refine ⟨j + 1, by omega, ?_⟩
        have hlt : (2 : Nat) ^ (j + 1) < 2 ^ 64 :=
          Nat.pow_lt_pow_right (by decide) (by omega)
        rw [hc, ← pow_succ]
        exact Nat.mod_eq_of_lt hlt
      · left
        have : j = 63 := by omega
        rw [hc, this]
        decide
  intro fuel
  induction fuel with
  | zero =>
    intro cap hc
    simp only [double_until]
    rw [if_pos (hbound cap hc)]
  | succ fuel ih =>
    intro cap hc
    simp only [double_until]
    rw [if_pos (hbound cap hc)]
    exact ih _ (hstep cap hc)

theorem default_capacity_pow : default_capacity = 0 ∨ ∃ j, j ≤ 63 ∧ default_capacity = 2 ^ j :=
  Or.inr ⟨5, by decide, by decide⟩

theorem double_until_rule (n : Nat) (hn : n ≤ 2 ^ 63) :
    ∃ c, double_until n n default_capacity = some c ∧ Vector.least_doubling c n := by
  rw [double_until_eq_nat n hn]
  exact double_until_nat_rule n

theorem least_doubling_unique (c d n : Nat) (hc : Vector.least_doubling c n)
    (hd : Vector.least_doubling d n) : c = d := by
  obtain ⟨k, rfl, hk1, hk2⟩ := hc
  obtain ⟨l, rfl, hl1, hl2⟩ := hd
  rcases Nat.lt_trichotomy k l with h | h | h
  · have := hl2 k h; omega
  · rw [h]
  · have := hk2 l h; omega

theorem least_doubling_small (c n : Nat) (hc : Vector.least_doubling c n)
    (hn : n ≤ default_capacity) : c = default_capacity := by
  obtain ⟨k, rfl, _, hk2⟩ := hc
  cases k with
  | zero => simp
  | succ k =>
    have := hk2 0 (by omega)
    simp at this
    omega

theorem least_doubling_bound (c n : Nat) (hc : Vector.least_doubling c n)
    (hn : default_capacity < n) : c < 2 * n := by
  obtain ⟨k, rfl, hk1, hk2⟩ := hc
  cases k with
  | zero => simp at hk1; omega
  | succ k =>
    have := hk2 k (by omega)
    rw [pow_succ, ← Nat.mul_assoc]
    omega

namespace Vector

theorem initialise_spec [Inhabited T] (h : Heap T) (this : Vector) (n : Nat) (t : T)
    (hn : n ≤ 2 ^ 63) :
    ∃ s, initialise h this n t default_capacity = some s ∧ s.2.length = n ∧
      least_doubling s.2.cap n ∧ readAll s.1 s.2 = List.replicate n (Result.value t) ∧
      s.2.v = some h.next ∧ s.1.size s.2.v = some s.2.cap ∧ s.1.next = h.next + 1 ∧
      s.1.ub = h.ub := by
  obtain ⟨c, hc, hrule⟩ := double_until_rule n hn
  have hnc : n ≤ c := by obtain ⟨k, _, hk, _⟩ := hrule; exact hk
  have hsz : (h.alloc c).1.size (some h.next) = some c := by rw [Heap.size_alloc]; simp
  have hloop := forUp_write (some h.next) t c n 0 (h.alloc c).1 hsz (by omega)
  have hshape := forUp_write_shape (some h.next) (fun _ => t) n 0 (h.alloc c).1
  simp only [initialise, hc, Heap.ptr_alloc, reset]
  refine ⟨_, rfl, rfl, hrule, ?_, rfl, ?_, ?_, hloop.2⟩
  · apply List.ext_getElem?
    intro k
    rw [getElem?_readAll]
    show (if k < n then some (Result.ofRead (Heap.read _ (some h.next) k)) else none) = _
    by_cases hk : k < n
    · rw [if_pos hk, hloop.1, if_pos ⟨rfl, by omega, by omega⟩,
        List.getElem?_eq_getElem (by simpa using hk)]
      simp [Result.ofRead]
    · rw [if_neg hk, List.getElem?_eq_none (by simp; omega)]
  · show Heap.size _ (some h.next) = some c
    rw [hshape.1, hsz]
  · show Heap.next _ = h.next + 1
    rw [hshape.2]; rfl

theorem initialise_none [Inhabited T] (h : Heap T) (this : Vector) (l : Nat) (t : T)
    (hl : 2 ^ 63 < l) : initialise h this l t default_capacity = none := by
  simp only [initialise]
  rw [double_until_never_ends l hl l default_capacity default_capacity_pow]

/-- C11 as stated fails. For `n = 2 ^ 63 + 1` the capacity doubles from 32 up to
`2 ^ 63`, which is below `n`, then wraps to 0 and stays 0: the loop ends for
no number of iterations and neither sized constructor returns a vector. -/
theorem sized_ctor_never_returns_beyond_half_range :
    (∀ fuel, double_until (2 ^ 63 + 1) fuel default_capacity = none) ∧
    ctor_size (Heap.empty : Heap Int) (raw 0) (2 ^ 63 + 1) = none ∧
    ctor_fill (Heap.empty : Heap Int) (raw 0) (2 ^ 63 + 1) 7 = none ∧
    ¬ ∃ s, ctor_size (Heap.empty : Heap Int) (raw 0) (2 ^ 63 + 1) = some s ∧
        size s.2 = 2 ^ 63 + 1 := by
  have hl : 2 ^ 63 < 2 ^ 63 + 1 := Nat.lt_succ_self _
  have h1 : ctor_size (Heap.empty : Heap Int) (raw 0) (2 ^ 63 + 1) = none :=
    initialise_none Heap.empty (raw 0) (2 ^ 63 + 1) default hl
  refine ⟨fun fuel => double_until_never_ends _ hl fuel _ default_capacity_pow, h1,
    initialise_none Heap.empty (raw 0) (2 ^ 63 + 1) 7 hl, ?_⟩
  rintro ⟨s, hs, _⟩
  rw [h1] at hs
  cases hs

/-- C11, amended. The default constructor gives length 0 and capacity 32; for
every `n ≤ 2 ^ 63` the sized constructors give length `n`, a capacity
`32 * 2 ^ k` with `k` least such that `32 * 2 ^ k ≥ n`, which is 32 when
`n ≤ 32` and below `2 * n` otherwise, and `n` live elements equal to the
default value, respectively to the given value, in a buffer of `cap` slots. -/
theorem ctor_sizes [Inhabited T] (h : Heap T) (this : Vector) (n : Nat) (t : T) :
    (∃ s, ctor h this = some s ∧ size s.2 = 0 ∧ capacity s.2 = 32) ∧
    (n ≤ 2 ^ 63 →
      (∃ s, ctor_size h this n = some s ∧ size s.2 = n ∧ least_doubling (capacity s.2) n ∧
        (n ≤ 32 → capacity s.2 = 32) ∧ (32 < n → capacity s.2 < 2 * n) ∧
        readAll s.1 s.2 = List.replicate n (Result.value default) ∧
        s.1.size s.2.v = some (capacity s.2) ∧ s.1.ub = h.ub) ∧
      (∃ s, ctor_fill h this n t = some s ∧ size s.2 = n ∧ least_doubling (capacity s.2) n ∧
        (n ≤ 32 → capacity s.2 = 32) ∧ (32 < n → capacity s.2 < 2 * n) ∧
        readAll s.1 s.2 = List.replicate n (Result.value t) ∧
        s.1.size s.2.v = some (capacity s.2) ∧ s.1.ub = h.ub)) := by
  refine ⟨?_, fun hn => ⟨?_, ?_⟩⟩
  · obtain ⟨s, hs, hlen, hrule, _⟩ := initialise_spec h this 0 (default : T) (Nat.zero_le _)
    exact ⟨s, hs, hlen, least_doubling_small _ 0 hrule (Nat.zero_le _)⟩
  · obtain ⟨s, hs, hlen, hrule, hread, _, hsz, _, hub⟩ :=
      initialise_spec h this n (default : T) hn
    exact ⟨s, hs, hlen, hrule, fun hn => least_doubling_small _ n hrule hn,
      fun hn => least_doubling_bound _ n hrule hn, hread, hsz, hub⟩
  · obtain ⟨s, hs, hlen, hrule, hread, _, hsz, _, hub⟩ := initialise_spec h this n t hn
    exact ⟨s, hs, hlen, hrule, fun hn => least_doubling_small _ n hrule hn,
      fun hn => least_doubling_bound _ n hrule hn, hread, hsz, hub⟩

/-! ### Capacity under the mutators -/

theorem grow_cap [Inhabited T] (h : Heap T) (a : Vector) :
    (if a.length + 1 > a.cap then double_capacity h a else (h, a)).2.cap
      = (if a.length + 1 ≤ a.cap then a.cap else a.cap * 2) ∧
    (if a.length + 1 > a.cap then double_capacity h a else (h, a)).2.length = a.length := by
  by_cases hg : a.length + 1 > a.cap
  · rw [if_pos hg, if_neg (by omega)]
    simp only [double_capacity]
    rw [reallocate_fields]
    exact ⟨rfl, rfl⟩
  · rw [if_neg hg, if_pos (by omega)]
    exact ⟨rfl, rfl⟩

theorem push_back_cap [Inhabited T] (h : Heap T) (a : Vector) (x : T) :
    (push_back h a x).2.cap = (if a.length + 1 ≤ a.cap then a.cap else a.cap * 2) ∧
    (push_back h a x).2.length = a.length + 1 := by
  have hg := grow_cap h a
  simp only [push_back]
  exact ⟨hg.1, by rw [hg.2]⟩

theorem insert_cap [Inhabited T] (h : Heap T) (a : Vector) (pos : Nat) (x : T)
    (s : Heap T × Vector) (hs : insert h a pos x = Except.ok s) :
    s.2.cap = (if a.length + 1 ≤ a.cap then a.cap else a.cap * 2) ∧
    s.2.length = a.length + 1 := by
  have hg := grow_cap h a
  simp only [insert] at hs
  by_cases hp : pos > a.length
  · rw [if_pos hp] at hs; cases hs
  · rw [if_neg hp] at hs
    injection hs with hs
    subst hs
    exact ⟨hg.1, by show _ + 1 = _; rw [hg.2]⟩

theorem erase_fields (h : Heap T) (a : Vector) (pos : Nat) (s : Heap T × Vector)
    (hs : erase h a pos = Except.ok s) : s.2 = { a with length := a.length - 1 } := by
  simp only [erase] at hs
  by_cases hp : pos ≥ a.length
  · rw [if_pos hp] at hs; cases hs
  · rw [if_neg hp] at hs
    injection hs with hs
    subst hs
    rfl

theorem grow_issued [Inhabited T] (h : Heap T) (a : Vector) (hiss : h.issued a.v) :
    (if a.length + 1 > a.cap then double_capacity h a else (h, a)).1.issued
      (if a.length + 1 > a.cap then double_capacity h a else (h, a)).2.v := by
  by_cases hgt : a.length + 1 > a.cap
  · rw [if_pos hgt]
    simp only [double_capacity]
    rw [reallocate_fields]
    show h.next < Heap.next _
    rw [reallocate_next]
    omega
  · rw [if_neg hgt]
    exact hiss

theorem issued_of_next (h s : Heap T) (p : Ptr) (hn : s.next = h.next) (hp : h.issued p) :
    s.issued p := by
  cases p with
  | none => trivial
  | some q =>
    show q < s.next
    rw [hn]; exact hp

theorem push_back_wf [Inhabited T] (h : Heap T) (a : Vector) (x : T) (hw : wf h a) :
    wf (push_back h a x).1 (push_back h a x).2 := by
  obtain ⟨hiss, hsz, h1, hl⟩ := hw
  have hg := grow_spec h a _ rfl hiss hsz h1 hl
  have hi := grow_issued h a hiss
  simp only [push_back]
  generalize (if a.length + 1 > a.cap then double_capacity h a else (h, a)) = r at hg hi ⊢
  obtain ⟨g1, g2, g3, _, _⟩ := hg
  refine ⟨issued_of_next r.1 _ r.2.v (Heap.next_write _ _ _ _) hi,
    by rw [Heap.size_write]; exact g2, ?_, ?_⟩
  · show 1 ≤ r.2.cap
    omega
  · show r.2.length + 1 ≤ r.2.cap
    omega

/-- C12. For every vector, `push_back` and a successful `insert` keep the
capacity when `length + 1 ≤ cap` and make it exactly twice the old one when
`length + 1 > cap`; on a vector whose buffer has `cap` slots, the element is
then stored in a buffer of the new capacity. -/
theorem growth_is_one_doubling [Inhabited T] (h : Heap T) (a : Vector) (pos : Nat) (x : T) :
    capacity (push_back h a x).2
      = (if a.length + 1 ≤ a.cap then capacity a else capacity a * 2) ∧
    (∀ s, insert h a pos x = Except.ok s →
      capacity s.2 = (if a.length + 1 ≤ a.cap then capacity a else capacity a * 2)) ∧
    (pos ≤ a.length → ∃ s, insert h a pos x = Except.ok s) ∧
    (wf h a → (push_back h a x).1.size (push_back h a x).2.v
        = some (capacity (push_back h a x).2) ∧ (push_back h a x).1.ub = h.ub) := by
  refine ⟨(push_back_cap h a x).1, fun s hs => (insert_cap h a pos x s hs).1, fun hp => ?_,
    fun hw => ⟨(push_back_wf h a x hw).2.1, ?_⟩⟩
  · exact ⟨_, by simp only [insert]; rw [if_neg (by omega)]⟩
  · exact (push_back_read h a x hw.1 hw.2.1 hw.2.2.1 hw.2.2.2).2.2

/-! ### The operation `clear` -/

/-- C16. For every vector, `clear()` sets the length to 0 and keeps the
capacity, the buffer pointer and, having no access to the heap, every slot of
the buffer; after it `operator[]` throws for every index and `find` returns
`end()` for every value. -/
theorem clear_keeps_buffer [DecidableEq T] (h : Heap T) (a : Vector) :
    size (clear a) = 0 ∧ capacity (clear a) = capacity a ∧ (clear a).v = a.v ∧
    (∀ j, h.read (clear a).v j = h.read a.v j) ∧ h.size (clear a).v = h.size a.v ∧
    (∀ i, index h (clear a) i = Result.out_of_range) ∧
    (∀ x, find h (clear a) x = Result.value (end_ (clear a))) := by
  refine ⟨rfl, rfl, rfl, fun _ => rfl, rfl, fun i => ?_, fun x => rfl⟩
  simp [index, clear]

/-! ### Calls that throw -/

theorem insert_exit_agrees [Inhabited T] (h : Heap T) (a : Vector) (pos : Nat) (x : T) :
    insert h a pos x
      = match (insert_exit h a pos x).thrown with
        | some e => Except.error e
        | none => Except.ok ((insert_exit h a pos x).heap, (insert_exit h a pos x).this) := by
  simp only [insert, insert_exit]
  by_cases hp : pos > a.length
  · rw [if_pos hp, if_pos hp]
  · rw [if_neg hp, if_neg hp]

theorem erase_exit_agrees (h : Heap T) (a : Vector) (pos : Nat) :
    erase h a pos
      = match (erase_exit h a pos).thrown with
        | some e => Except.error e
        | none => Except.ok ((erase_exit h a pos).heap, (erase_exit h a pos).this) := by
  simp only [erase, erase_exit]
  by_cases hp : pos ≥ a.length
  · rw [if_pos hp, if_pos hp]
  · rw [if_neg hp, if_neg hp]

theorem index_exit_agrees (h : Heap T) (a : Vector) (i : Nat) :
    (index h a i = Result.out_of_range ↔ (index_exit h a i).thrown = some Exn.out_of_range) ∧
    (i < a.length → (index_exit h a i).thrown = none) := by
  simp only [index, index_exit]
  by_cases hi : i < a.length
  · rw [if_pos hi, if_pos hi]
    cases h.read a.v i <;> simp [Result.ofRead]
  · rw [if_neg hi, if_neg hi]
    simp [hi]

/-- C18. When `operator[]`, `insert` or `erase` throws `out_of_range`, the call
ends in the heap and with the fields it started with: length, capacity, buffer
pointer and every stored element are untouched, and a failing `insert` on a
full vector has not doubled the capacity. -/
theorem failure_is_atomic [Inhabited T] (h : Heap T) (a : Vector) (pos : Nat) (x : T) (e : Exn) :
    (index h a pos = Result.out_of_range →
      (index_exit h a pos).thrown = some Exn.out_of_range ∧
      (index_exit h a pos).heap = h ∧ (index_exit h a pos).this = a) ∧
    (insert h a pos x = Except.error e →
      (insert_exit h a pos x).thrown = some e ∧
      (insert_exit h a pos x).heap = h ∧ (insert_exit h a pos x).this = a) ∧
    (erase h a pos = Except.error e →
      (erase_exit h a pos).thrown = some e ∧
      (erase_exit h a pos).heap = h ∧ (erase_exit h a pos).this = a) := by
  refine ⟨fun hi => ?_, fun hi => ?_, fun hi => ?_⟩
  · have hlen : ¬ pos < a.length := by
      intro hlt
      have := (index_exit_agrees h a pos).1.1 hi
      rw [(index_exit_agrees h a pos).2 hlt] at this
      cases this
    simp only [index_exit]
    rw [if_neg hlen]
    exact ⟨rfl, rfl, rfl⟩
  · have hp : pos > a.length := by
      by_contra hn
      simp only [insert] at hi
      rw [if_neg hn] at hi
      cases hi
    cases e
    simp only [insert_exit]
    rw [if_pos hp]
    exact ⟨rfl, rfl, rfl⟩
  · have hp : pos ≥ a.length := by
      by_contra hn
      simp only [erase] at hi
      rw [if_neg hn] at hi
      cases hi
    cases e
    simp only [erase_exit]
    rw [if_pos hp]
    exact ⟨rfl, rfl, rfl⟩


/-! ### Capacity over the whole interface -/

/-- C14 as stated fails. Move construction leaves its source, of capacity 32,
with capacity 0; copy assignment from a vector of capacity 32 lowers the
capacity of a vector of capacity 64 to 32; move assignment does the same. -/
theorem capacity_drops_on_move_and_assign :
    capacity sample_list.2 = 32 ∧ capacity (ctor_move (raw 1) sample_list.2).2 = 0 ∧
    capacity sample_wide.2 = 64 ∧
    capacity (assign_copy sample_wide.1 sample_wide.2 sample_list.2).2 = 32 ∧
    capacity (assign_move sample_wide.1 sample_wide.2 sample_list.2).2.1 = 32 ∧
    capacity (assign_move sample_wide.1 sample_wide.2 sample_list.2).2.2 = 0 ∧
    ¬ (capacity sample_list.2 ≤ capacity (ctor_move (raw 1) sample_list.2).2) ∧
    ¬ (capacity sample_wide.2
        ≤ capacity (assign_copy sample_wide.1 sample_wide.2 sample_list.2).2) := by
  decide

/-- C14, amended. Under `push_back`, `insert`, `erase`, `clear` and `reset` the
capacity never decreases: it stays, or it is exactly doubled by a `push_back`
or `insert` made when `length + 1 > cap`. Copy assignment and move assignment
give the assigned object the capacity of their source, move construction
gives it to the new object, and a move leaves its source with capacity 0. -/
theorem capacity_under_mutators [Inhabited T] (h : Heap T) (a other : Vector) (pos : Nat)
    (x : T) :
    (capacity a ≤ capacity (push_back h a x).2 ∧
      (capacity (push_back h a x).2 = capacity a ∨
        (a.length + 1 > a.cap ∧ capacity (push_back h a x).2 = capacity a * 2))) ∧
    (∀ s, insert h a pos x = Except.ok s → capacity a ≤ capacity s.2 ∧
      (capacity s.2 = capacity a ∨ (a.length + 1 > a.cap ∧ capacity s.2 = capacity a * 2))) ∧
    (∀ s, erase h a pos = Except.ok s → capacity s.2 = capacity a) ∧
    capacity (clear a) = capacity a ∧
    (reset h a x).size a.v = h.size a.v ∧
    (a.addr ≠ other.addr → capacity (assign_copy h a other).2 = capacity other) ∧
    (a.addr ≠ other.addr → capacity (assign_move h a other).2.1 = capacity other ∧
      capacity (assign_move h a other).2.2 = 0) ∧
    (capacity (ctor_move a other).1 = capacity other ∧ capacity (ctor_move a other).2 = 0) := by
  have hcap : ∀ c : Nat, c = (if a.length + 1 ≤ a.cap then a.cap else a.cap * 2) →
      a.cap ≤ c ∧ (c = a.cap ∨ (a.length + 1 > a.cap ∧ c = a.cap * 2)) := by
    intro c hc
    by_cases hle : a.length + 1 ≤ a.cap
    · rw [if_pos hle] at hc; exact ⟨by omega, Or.inl hc⟩
    · rw [if_neg hle] at hc; exact ⟨by omega, Or.inr ⟨by omega, hc⟩⟩
  refine ⟨hcap _ (push_back_cap h a x).1, fun s hs => hcap _ (insert_cap h a pos x s hs).1,
    fun s hs => ?_, rfl, ?_, fun hd => ?_, fun hd => ?_, rfl, rfl⟩
  · rw [erase_fields h a pos s hs]; rfl
  · exact (forUp_write_shape a.v (fun _ => x) a.length 0 h).1 a.v
  · simp only [assign_copy, copy, if_pos hd]; rfl
  · simp only [assign_move, if_pos hd]; exact ⟨rfl, rfl⟩

/-- C15 as stated fails. After `Vector<int> a; Vector<int> b(std::move(a));` the
capacity of `a` is 0, which is no `32 * 2 ^ k`, and a `push_back` on `a`
leaves it at 0. -/
theorem moved_from_capacity_is_no_doubling :
    capacity sample_moved.2.2 = 0 ∧
    capacity (push_back sample_moved.1 sample_moved.2.2 7).2 = 0 ∧
    ¬ ∃ k, capacity sample_moved.2.2 = 32 * 2 ^ k := by
  refine ⟨by decide, by decide, ?_⟩
  rintro ⟨k, hk⟩
  have h0 : capacity sample_moved.2.2 = 0 := by decide
  rw [h0] at hk
  have : 0 < 32 * 2 ^ k := Nat.mul_pos (by decide) (Nat.pos_pow_of_pos k (by decide))
  omega

/-- C15, amended. In every state reachable through the public interface the
capacity is `32 * 2 ^ k` for some `k`, or it is 0, the capacity of a
moved-from vector, which `push_back` and `insert` keep at 0 and which copies
and moves hand on. -/
theorem reachable_capacity [Inhabited T] (a : Vector) (hr : Reachable T a) :
    capacity a = 0 ∨ ∃ k, capacity a = 32 * 2 ^ k := by
  have hinit : ∀ (h : Heap T) (this : Vector) (l : Nat) (t : T) (s : Heap T × Vector),
      initialise h this l t default_capacity = some s → ∃ k, s.2.cap = 32 * 2 ^ k := by
    intro h this l t s hs
    rcases Nat.lt_or_ge (2 ^ 63) l with hl | hl
    · rw [initialise_none h this l t hl] at hs
      cases hs
    · obtain ⟨s2, hs2, _, ⟨k, hk, _⟩, _⟩ := initialise_spec h this l t hl
      rw [hs2] at hs
      injection hs with hs
      subst hs
      exact ⟨k, hk⟩
  have hgrow : ∀ (c d : Nat) (l : Nat), (c = 0 ∨ ∃ k, c = 32 * 2 ^ k) →
      d = (if l + 1 ≤ c then c else c * 2) → (d = 0 ∨ ∃ k, d = 32 * 2 ^ k) := by
    intro c d l hc hd
    by_cases hle : l + 1 ≤ c
    · rw [if_pos hle] at hd; rw [hd]; exact hc
    · rw [if_neg hle] at hd
      rcases hc with h0 | ⟨k, hk⟩
      · left; rw [hd, h0]
      · right; exact ⟨k + 1, by rw [hd, hk, pow_succ, Nat.mul_assoc]⟩
  induction hr with
  | ctor h this s hs => exact Or.inr (hinit h this 0 default s hs)
  | ctor_size h this l s hs => exact Or.inr (hinit h this l default s hs)
  | ctor_fill h this l t s hs => exact Or.inr (hinit h this l t s hs)
  | ctor_list h this xs s hs =>
    right
    obtain ⟨c, hc, k, hk, _⟩ := double_until_nat_rule xs.length
    simp only [ctor_list, hc] at hs
    injection hs with hs
    subst hs
    exact ⟨k, hk⟩
  | ctor_copy h this other _ hd ih =>
    simp only [ctor_copy, copy, if_pos hd]
    exact ih
  | assign_copy h this other _ _ ih1 ih2 =>
    by_cases hd : this.addr ≠ other.addr
    · simp only [assign_copy, copy, if_pos hd]; exact ih2
    · simp only [assign_copy, if_neg hd]; exact ih1
  | ctor_move_to this other _ ih => exact ih
  | ctor_move_from this other _ _ => exact Or.inl rfl
  | assign_move_to h this other _ _ ih1 ih2 =>
    by_cases hd : this.addr ≠ other.addr
    · simp only [assign_move, if_pos hd]; exact ih2
    · simp only [assign_move, if_neg hd]; exact ih1
  | assign_move_from h this other _ _ _ ih2 =>
    by_cases hd : this.addr ≠ other.addr
    · simp only [assign_move, if_pos hd]; exact Or.inl rfl
    · simp only [assign_move, if_neg hd]; exact ih2
  | push_back h a x _ ih => exact hgrow _ _ a.length ih (push_back_cap h a x).1
  | insert h a pos x s _ hs ih => exact hgrow _ _ a.length ih (insert_cap h a pos x s hs).1
  | erase h a pos s _ hs ih => rw [erase_fields h a pos s hs]; exact ih
  | clear a _ ih => exact ih

/-- C17, evaluated on the code. After `Vector<int> a{1, 2, 3, 4, 5}; Vector<int> b(a);`
the buffer of `b` has 5 slots while `b.capacity()` is 32, and the same holds
after `c = a`. `b.push_back(6)` finds `length + 1 ≤ cap`, does not reallocate
and stores at index 5, outside the buffer; `b.insert(0, 6)` does the same. -/
theorem copy_buffer_smaller_than_capacity :
    sample_copy.1.size sample_copy.2.v = some 5 ∧ capacity sample_copy.2 = 32 ∧
    sample_copy.1.ub = false ∧
    (assign_copy sample_wide.1 sample_wide.2 sample_list.2).1.size
      (assign_copy sample_wide.1 sample_wide.2 sample_list.2).2.v = some 5 ∧
    capacity (assign_copy sample_wide.1 sample_wide.2 sample_list.2).2 = 32 ∧
    (push_back sample_copy.1 sample_copy.2 6).2.v = sample_copy.2.v ∧
    (push_back sample_copy.1 sample_copy.2 6).1.ub = true ∧
    index (push_back sample_copy.1 sample_copy.2 6).1 (push_back sample_copy.1 sample_copy.2 6).2 5
      = Result.undefined ∧
    (∃ s, insert sample_copy.1 sample_copy.2 0 6 = Except.ok s ∧ s.1.ub = true) := by
  refine ⟨by decide, by decide, by decide, by decide, by decide, by decide, by decide,
    by decide, ⟨_, rfl, by decide⟩⟩


/-! ### Insertion followed by erasure -/

theorem insert_wf [Inhabited T] (h : Heap T) (a : Vector) (pos : Nat) (x : T)
    (hw : wf h a) (s : Heap T × Vector) (hs : insert h a pos x = Except.ok s) :
    wf s.1 s.2 := by
  obtain ⟨hiss, hsz, h1, hl⟩ := hw
  have hg := grow_spec h a _ rfl hiss hsz h1 hl
  have hi := grow_issued h a hiss
  simp only [insert] at hs
  by_cases hp : pos > a.length
  · rw [if_pos hp] at hs; cases hs
  · rw [if_neg hp] at hs
    generalize (if a.length + 1 > a.cap then double_capacity h a else (h, a)) = r at hg hi hs
    obtain ⟨g1, g2, g3, _, _⟩ := hg
    injection hs with hs
    subst hs
    have hshape := forDown_assign_shape r.2.v r.2.v (fun i => i - 1) (fun i => i)
      (r.2.length - pos) r.2.length r.1
    refine ⟨issued_of_next r.1 _ r.2.v (by rw [Heap.next_write]; exact hshape.2) hi,
      by rw [Heap.size_write]; show Heap.size _ r.2.v = some r.2.cap; rw [hshape.1]; exact g2,
      ?_, ?_⟩
    · show 1 ≤ r.2.cap
      omega
    · show r.2.length + 1 ≤ r.2.cap
      omega

/-- C19. On a vector whose buffer has `cap` slots, `cap ≥ 1` and `cap ≥ length`,
`insert(pos, x)` with `pos ≤ length` followed by `erase(pos)` succeeds and
gives back the length and the live sequence; the capacity is the old one or
its double. -/
theorem erase_undoes_insert [Inhabited T] (h : Heap T) (a : Vector) (pos : Nat) (x : T)
    (hiss : h.issued a.v) (hsz : h.size a.v = some a.cap) (h1 : 1 ≤ a.cap)
    (hl : a.length ≤ a.cap) (hpos : pos ≤ a.length) :
    ∃ s1 s2, insert h a pos x = Except.ok s1 ∧ erase s1.1 s1.2 pos = Except.ok s2 ∧
      size s2.2 = size a ∧ readAll s2.1 s2.2 = readAll h a ∧
      (capacity s2.2 = capacity a ∨ capacity s2.2 = capacity a * 2) ∧ s2.1.ub = h.ub := by
  obtain ⟨h', a', hok, hlen, hread, hub⟩ := insert_read h a pos x hiss hsz h1 hl hpos
  have hw := insert_wf h a pos x ⟨hiss, hsz, h1, hl⟩ (h', a') hok
  have hcap := (insert_cap h a pos x (h', a') hok).1
  obtain ⟨h'', hok2, hread2, hub2⟩ := erase_read h' a' pos a'.cap hw.2.1 hw.2.2.2
    (by rw [hlen]; omega)
  refine ⟨(h', a'), _, hok, hok2, ?_, ?_, ?_, by rw [← hub]; exact hub2⟩
  · show a'.length - 1 = a.length
    omega
  · refine readAll_congr h h'' a _ (by show a'.length - 1 = a.length; omega) (fun j hj => ?_)
    show h''.read a'.v j = h.read a.v j
    rw [hread2, hlen]
    by_cases hjp : pos ≤ j
    · rw [if_pos ⟨hjp, by omega⟩, hread (j + 1) (by omega), if_neg (by omega),
        if_neg (by omega)]
      rfl
    · rw [if_neg (by rintro ⟨h3, _⟩; exact hjp h3), hread j (by omega), if_pos (by omega)]
  · show a'.cap = a.cap ∨ a'.cap = a.cap * 2
    have hc : a'.cap = if a.length + 1 ≤ a.cap then a.cap else a.cap * 2 := hcap
    by_cases hle : a.length + 1 ≤ a.cap
    · rw [if_pos hle] at hc; exact Or.inl hc
    · rw [if_neg hle] at hc; exact Or.inr hc

/-! ### Repeated `push_back` against the literal constructor -/

theorem least_doubling_step (c n : Nat) (hc : least_doubling c n) :
    least_doubling (if n + 1 ≤ c then c else c * 2) (n + 1) := by
  obtain ⟨k, rfl, hk1, hk2⟩ := hc
  by_cases hle : n + 1 ≤ default_capacity * 2 ^ k
  · rw [if_pos hle]
    exact ⟨k, rfl, hle, fun j hj => Nat.lt_succ_of_lt (hk2 j hj)⟩
  · rw [if_neg hle]
    have hpos : 0 < default_capacity * 2 ^ k :=
      Nat.mul_pos (by decide) (Nat.pos_pow_of_pos k (by decide))
    refine ⟨k + 1, by rw [pow_succ, Nat.mul_assoc], by omega, fun j hj => ?_⟩
    have hmono : default_capacity * 2 ^ j ≤ default_capacity * 2 ^ k :=
      Nat.mul_le_mul_left _ (Nat.pow_le_pow_right (by decide) (by omega))
    omega

theorem push_back_readAll [Inhabited T] (h : Heap T) (a : Vector) (x : T) (hw : wf h a) :
    readAll (push_back h a x).1 (push_back h a x).2 = readAll h a ++ [Result.value x] := by
  obtain ⟨p1, p2, _⟩ := push_back_read h a x hw.1 hw.2.1 hw.2.2.1 hw.2.2.2
  apply List.ext_getElem?
  intro k
  rw [getElem?_readAll, List.getElem?_append, length_readAll, getElem?_readAll, p1]
  by_cases hk : k < a.length
  · rw [if_pos (by omega), if_pos hk, if_pos hk, p2 k (by omega), if_neg (by omega)]
  · by_cases hk2 : k = a.length
    · subst hk2
      rw [if_pos (by omega), if_neg hk, p2 _ (by omega), if_pos rfl]
      simp [Result.ofRead]
    · rw [if_neg (by omega), if_neg hk]
      exact (List.getElem?_eq_none (by simp; omega)).symm

theorem push_back_all_spec [Inhabited T] : ∀ (xs ys : List T) (s : Heap T × Vector),
    wf s.1 s.2 → least_doubling s.2.cap s.2.length →
    readAll s.1 s.2 = ys.map Result.value →
    wf (push_back_all s xs).1 (push_back_all s xs).2 ∧
    least_doubling (push_back_all s xs).2.cap (push_back_all s xs).2.length ∧
    (push_back_all s xs).2.length = s.2.length + xs.length ∧
    readAll (push_back_all s xs).1 (push_back_all s xs).2 = (ys ++ xs).map Result.value ∧
    (push_back_all s xs).1.ub = s.1.ub := by
  intro xs
  induction xs with
  | nil =>
    intro ys s hw hrule hread
    have hfold : push_back_all s ([] : List T) = s := rfl
    rw [hfold, List.append_nil]
    exact ⟨hw, hrule, rfl, hread, rfl⟩
  | cons x xs ih =>
    intro ys s hw hrule hread
    have hc := push_back_cap s.1 s.2 x
    have hstep := ih (ys ++ [x]) (push_back s.1 s.2 x) (push_back_wf s.1 s.2 x hw)
      (by rw [hc.1, hc.2]; exact least_doubling_step _ _ hrule)
      (by rw [push_back_readAll s.1 s.2 x hw, hread]; simp)
    have hub := (push_back_read s.1 s.2 x hw.1 hw.2.1 hw.2.2.1 hw.2.2.2).2.2
    have hfold : push_back_all s (x :: xs) = push_back_all (push_back s.1 s.2 x) xs := rfl
    rw [hfold]
    refine ⟨hstep.1, hstep.2.1, ?_, ?_, ?_⟩
    · rw [hstep.2.2.1, hc.2, List.length_cons]; omega
    · rw [hstep.2.2.2.1, List.append_assoc]; rfl
    · rw [hstep.2.2.2.2, hub]

theorem ctor_list_spec [Inhabited T] (h : Heap T) (this : Vector) (xs : List T) :
    ∃ s, ctor_list h this xs = some s ∧ s.2.length = xs.length ∧
      least_doubling s.2.cap xs.length ∧ readAll s.1 s.2 = xs.map Result.value ∧
      s.1.ub = h.ub := by
  obtain ⟨c, hc, hrule⟩ := double_until_nat_rule xs.length
  have hle : xs.length ≤ c := by obtain ⟨k, _, hk, _⟩ := hrule; exact hk
  have hsz : (h.alloc c).1.size (some h.next) = some c := by rw [Heap.size_alloc]; simp
  have hloop := forUp_list (some h.next) xs c xs.length 0 (h.alloc c).1 hsz (by omega) (by omega)
  simp only [ctor_list, hc, Heap.ptr_alloc]
  refine ⟨_, rfl, rfl, hrule, ?_, hloop.2⟩
  apply List.ext_getElem?
  intro k
  rw [getElem?_readAll, List.getElem?_map]
  show (if k < xs.length then some (Result.ofRead (Heap.read _ (some h.next) k)) else none) = _
  by_cases hk : k < xs.length
  · rw [if_pos hk, hloop.1, if_pos ⟨rfl, by omega, by omega⟩, List.getElem?_eq_getElem hk]
    rfl
  · rw [if_neg hk, List.getElem?_eq_none (by omega)]
    rfl

/-- C20. For every sequence `xs`, the default constructor followed by a
`push_back` of each element of `xs` in order ends with the length, the
capacity and the live sequence of the vector built from the literal `xs`;
that capacity is `32 * 2 ^ k` for the least `k` with `32 * 2 ^ k ≥ |xs|`. -/
theorem push_back_all_agrees_with_ctor_list [Inhabited T] (h : Heap T) (this : Vector)
    (xs : List T) :
    ∃ s0 sl, ctor h this = some s0 ∧ ctor_list h this xs = some sl ∧
      size (push_back_all s0 xs).2 = size sl.2 ∧
      capacity (push_back_all s0 xs).2 = capacity sl.2 ∧
      least_doubling (capacity sl.2) xs.length ∧
      readAll (push_back_all s0 xs).1 (push_back_all s0 xs).2 = readAll sl.1 sl.2 ∧
      readAll sl.1 sl.2 = xs.map Result.value ∧
      (push_back_all s0 xs).1.ub = h.ub := by
  obtain ⟨s0, hs0, hlen0, hrule0, hread0, hv0, hsz0, hnext0, hub0⟩ :=
    initialise_spec h this 0 (default : T) (Nat.zero_le _)
  obtain ⟨sl, hsl, hlenl, hrulel, hreadl, _⟩ := ctor_list_spec h this xs
  have hcap0 : s0.2.cap = default_capacity := least_doubling_small _ 0 hrule0 (Nat.zero_le _)
  have hw0 : wf s0.1 s0.2 := by
    refine ⟨?_, hsz0, by rw [hcap0]; decide, by omega⟩
    rw [hv0]
    show h.next < s0.1.next
    omega
  have hall := push_back_all_spec xs [] s0 hw0 (by rw [hlen0]; exact hrule0)
    (by rw [hread0]; rfl)
  refine ⟨s0, sl, hs0, hsl, ?_, ?_, hrulel, ?_, hreadl, by rw [hall.2.2.2.2, hub0]⟩
  · show (push_back_all s0 xs).2.length = sl.2.length
    rw [hall.2.2.1, hlen0, hlenl]; omega
  · refine least_doubling_unique _ _ xs.length ?_ hrulel
    have := hall.2.1
    rw [hall.2.2.1, hlen0, Nat.zero_add] at this
    exact this
  · rw [hall.2.2.2.1, hreadl]; rfl


/-! ### Further evaluations on sample states -/

set_option maxRecDepth 100000

theorem sample_default_eq :
    ctor (Heap.empty : Heap Int) (raw 0) = some sample_default := rfl

theorem sample_wide_eq :
    ctor_size sample_list.1 (raw 1) 40 = some sample_wide := rfl

/-- C13. From the default-constructed vector, of length 0 and capacity 32, the
`push_back` of 0, 1, ..., 31 leaves the capacity at 32, the `push_back` of 32
doubles it, and after the 33 appends the length is 33, the capacity 64,
`operator[]` gives 32 at index 32 and throws at index 33. -/
theorem thirty_three_push_backs :
    size sample_default.2 = 0 ∧ capacity sample_default.2 = 32 ∧
    size sample_pushed32.2 = 32 ∧ capacity sample_pushed32.2 = 32 ∧
    capacity (push_back sample_pushed32.1 sample_pushed32.2 32).2 = 64 ∧
    size sample_pushed33.2 = 33 ∧ capacity sample_pushed33.2 = 64 ∧
    index sample_pushed33.1 sample_pushed33.2 32 = Result.value 32 ∧
    index sample_pushed33.1 sample_pushed33.2 33 = Result.out_of_range ∧
    readAll sample_pushed33.1 sample_pushed33.2
      = ((List.range 33).map Int.ofNat).map Result.value ∧
    sample_pushed33.1.ub = false := by
  decide

/-- The sized constructor with 40 copies of 7. -/
theorem ctor_sizes_witness :
    40 ≤ 2 ^ 63 ∧ ∃ s, ctor_fill (Heap.empty : Heap Int) (raw 0) 40 7 = some s ∧ size s.2 = 40 ∧
      least_doubling (capacity s.2) 40 ∧ capacity s.2 < 2 * 40 ∧
      readAll s.1 s.2 = List.replicate 40 (Result.value 7) := by
  obtain ⟨s, h1, h2, h3, _, h5, h6, _⟩ :=
    ((ctor_sizes (Heap.empty : Heap Int) (raw 0) 40 7).2 (by decide)).2
  exact ⟨by decide, s, h1, h2, h3, h5 (by decide), h6⟩

/-- A `push_back` on 32 elements in 32 slots doubles the capacity, an `insert`
into 5 elements in 32 slots keeps it. -/
theorem growth_is_one_doubling_witness :
    wf sample_full.1 sample_full.2 ∧
    capacity (push_back sample_full.1 sample_full.2 9).2 = 64 ∧
    (push_back sample_full.1 sample_full.2 9).1.size (push_back sample_full.1 sample_full.2 9).2.v
      = some (capacity (push_back sample_full.1 sample_full.2 9).2) ∧
    (∃ s, insert sample_list.1 sample_list.2 1 9 = Except.ok s ∧ capacity s.2 = 32) := by
  have hw : wf sample_full.1 sample_full.2 := ⟨by decide, by decide, by decide, by decide⟩
  refine ⟨hw, ?_, ?_, ?_⟩
  · exact (growth_is_one_doubling sample_full.1 sample_full.2 0 9).1.trans (by decide)
  · exact ((growth_is_one_doubling sample_full.1 sample_full.2 0 9).2.2.2 hw).1
  · obtain ⟨s, hs⟩ := (growth_is_one_doubling sample_list.1 sample_list.2 1 9).2.2.1 (by decide)
    exact ⟨s, hs, ((growth_is_one_doubling sample_list.1 sample_list.2 1 9).2.1 s hs).trans
      (by decide)⟩

/-- The mutators on `{1, 2, 3, 4, 5}` of capacity 32, and assignments to a
vector of capacity 64. -/
theorem capacity_under_mutators_witness :
    sample_wide.2.addr ≠ sample_list.2.addr ∧
    capacity sample_list.2 ≤ capacity (push_back sample_list.1 sample_list.2 9).2 ∧
    (∃ s, erase sample_list.1 sample_list.2 2 = Except.ok s ∧
      capacity s.2 = capacity sample_list.2) ∧
    capacity (assign_copy sample_wide.1 sample_wide.2 sample_list.2).2
      = capacity sample_list.2 ∧
    capacity (assign_move sample_wide.1 sample_wide.2 sample_list.2).2.2 = 0 :=
  ⟨by decide,
   (capacity_under_mutators sample_list.1 sample_list.2 sample_wide.2 2 9).1.1,
   ⟨_, sample_erased_eq,
     (capacity_under_mutators sample_list.1 sample_list.2 sample_wide.2 2 9).2.2.1 _
       sample_erased_eq⟩,
   (capacity_under_mutators sample_wide.1 sample_wide.2 sample_list.2 2 9).2.2.2.2.2.1
     (by decide),
   ((capacity_under_mutators sample_wide.1 sample_wide.2 sample_list.2 2 9).2.2.2.2.2.2.1
     (by decide)).2⟩

/-- The vector `{1, 2, 3, 4, 5}` after a `push_back`, and the moved-from source
of a move construction from it. -/
theorem reachable_capacity_witness :
    Reachable Int (push_back sample_list.1 sample_list.2 6).2 ∧
    Reachable Int (ctor_move (raw 1) sample_list.2).2 ∧
    (capacity (push_back sample_list.1 sample_list.2 6).2 = 0 ∨
      ∃ k, capacity (push_back sample_list.1 sample_list.2 6).2 = 32 * 2 ^ k) ∧
    (capacity (ctor_move (raw 1) sample_list.2).2 = 0 ∨
      ∃ k, capacity (ctor_move (raw 1) sample_list.2).2 = 32 * 2 ^ k) := by
  have hr : Reachable Int sample_list.2 :=
    Reachable.ctor_list Heap.empty (raw 0) [1, 2, 3, 4, 5] sample_list sample_list_eq
  have h1 := Reachable.push_back sample_list.1 sample_list.2 6 hr
  have h2 := Reachable.ctor_move_from (raw 1) sample_list.2 hr
  exact ⟨h1, h2, reachable_capacity _ h1, reachable_capacity _ h2⟩

/-- Clearing `{1, 2, 3, 4, 5}`. -/
theorem clear_keeps_buffer_witness :
    capacity (clear sample_list.2) = 32 ∧
    sample_list.1.read (clear sample_list.2).v 4 = some 5 ∧
    index sample_list.1 (clear sample_list.2) 0 = Result.out_of_range ∧
    find sample_list.1 (clear sample_list.2) 3 = Result.value (end_ (clear sample_list.2)) :=
  ⟨(clear_keeps_buffer sample_list.1 sample_list.2).2.1.trans (by decide),
   ((clear_keeps_buffer sample_list.1 sample_list.2).2.2.2.1 4).trans (by decide),
   (clear_keeps_buffer sample_list.1 sample_list.2).2.2.2.2.2.1 0,
   (clear_keeps_buffer sample_list.1 sample_list.2).2.2.2.2.2.2 3⟩

/-- A failing `insert` on 32 elements in 32 slots leaves the capacity at 32. -/
theorem failure_is_atomic_witness :
    insert sample_full.1 sample_full.2 40 9 = Except.error Exn.out_of_range ∧
    (insert_exit sample_full.1 sample_full.2 40 9).this = sample_full.2 ∧
    capacity (insert_exit sample_full.1 sample_full.2 40 9).this = 32 ∧
    erase sample_full.1 sample_full.2 32 = Except.error Exn.out_of_range ∧
    (erase_exit sample_full.1 sample_full.2 32).this = sample_full.2 := by
  have hi : insert sample_full.1 sample_full.2 40 9 = Except.error Exn.out_of_range := rfl
  have he : erase sample_full.1 sample_full.2 32 = Except.error Exn.out_of_range := rfl
  have h1 := (failure_is_atomic sample_full.1 sample_full.2 40 9 Exn.out_of_range).2.1 hi
  have h2 := (failure_is_atomic sample_full.1 sample_full.2 32 9 Exn.out_of_range).2.2 he
  exact ⟨hi, h1.2.2, by rw [h1.2.2]; decide, he, h2.2.2⟩

/-- An `insert(3, 9)` into 32 elements in 32 slots, which reallocates, undone
by `erase(3)`. -/
theorem erase_undoes_insert_witness :
    (sample_full.1.issued sample_full.2.v ∧
      sample_full.1.size sample_full.2.v = some sample_full.2.cap ∧
      1 ≤ sample_full.2.cap ∧ sample_full.2.length ≤ sample_full.2.cap ∧
      3 ≤ sample_full.2.length) ∧
    ∃ s1 s2, insert sample_full.1 sample_full.2 3 9 = Except.ok s1 ∧
      erase s1.1 s1.2 3 = Except.ok s2 ∧ size s2.2 = 32 ∧
      readAll s2.1 s2.2 = readAll sample_full.1 sample_full.2 := by
  refine ⟨⟨by decide, by decide, by decide, by decide, by decide⟩, ?_⟩
  obtain ⟨s1, s2, h1, h2, h3, h4, _⟩ := erase_undoes_insert sample_full.1 sample_full.2 3 9
    (by decide) (by decide) (by decide) (by decide) (by decide)
  exact ⟨s1, s2, h1, h2, h3.trans (by decide), h4⟩

/-- Three appends against the literal `{1, 2, 3}`. -/
theorem push_back_all_agrees_with_ctor_list_witness :
    ∃ s0 sl, ctor (Heap.empty : Heap Int) (raw 0) = some s0 ∧
      ctor_list (Heap.empty : Heap Int) (raw 0) [1, 2, 3] = some sl ∧
      capacity (push_back_all s0 [1, 2, 3]).2 = capacity sl.2 ∧
      readAll (push_back_all s0 [1, 2, 3]).1 (push_back_all s0 [1, 2, 3]).2
        = [1, 2, 3].map Result.value := by
  obtain ⟨s0, sl, h1, h2, _, h4, _, h6, h7, _⟩ :=
    push_back_all_agrees_with_ctor_list (Heap.empty : Heap Int) (raw 0) [1, 2, 3]
  exact ⟨s0, sl, h1, h2, h4, h6.trans h7⟩

end Vector

end Lemmas

end TemplateContainer
